import Mathlib

/-!
# Verification of the rm-qmd-verify validation core

A shallow embedding of the Go validation core of rm-qmd-verify: the result
reconciler (`internal/qmd/result_parser.go`), the hash-position locator
(`internal/qmd/hash_finder.go`), the applier adapter
(`internal/qmldiff/cli_validator.go` and its two-phase revision), the
validation service loop (`internal/qmldiff/service.go`), the name parsers
(`pkg/hashtab/hashtab.go`, `pkg/qmltree/tree.go`), and the job registry
(`internal/jobs/store.go`).

Go strings are modelled as `List Char` (`GoStr`); Go maps as association
lists read through `findA` (first match) and written through `mapSet`
(overwrite); the external applier subprocess as an oracle record supplying
the outcome of each invocation. Floating-point progress arithmetic is
modelled exactly: every `float64` step is rounded to the nearest double
(ties to even) over numerator/denominator pairs of naturals, and the
final `int(...)` conversion truncates toward zero.
-/

set_option maxHeartbeats 1000000

namespace RmQmdVerify

/-- Go strings, modelled as their character lists. -/
abbrev GoStr := List Char

/-- Go map read: the value stored under key `k` (association-list model;
keys are unique in a Go map, so first match is the match). -/
def findA {α : Type} (k : GoStr) : List (GoStr × α) → Option α
  | [] => none
  | (k2, v) :: rest => if k2 = k then some v else findA k rest

/-- Go map write `m[k] = v`: overwrite any entry under `k`. -/
def mapSet {α : Type} (m : List (GoStr × α)) (k : GoStr) (v : α) :
    List (GoStr × α) :=
  m.filter (fun p => p.1 ≠ k) ++ [(k, v)]

theorem findA_mem {α : Type} {k : GoStr} {m : List (GoStr × α)} {v : α}
    (h : findA k m = some v) : (k, v) ∈ m := by
  induction m with
  | nil => simp [findA] at h
  | cons p rest ih =>
    obtain ⟨k2, v2⟩ := p
    by_cases hk : k2 = k
    · subst hk
      simp [findA] at h
      simp [h]
    · simp [findA, hk] at h
      exact List.mem_cons_of_mem _ (ih h)

theorem findA_mapSet_self {α : Type} (m : List (GoStr × α)) (k : GoStr)
    (v : α) : findA k (mapSet m k v) = some v := by
  induction m with
  | nil => simp [mapSet, findA]
  | cons p rest ih =>
    obtain ⟨k2, v2⟩ := p
    by_cases hk : k2 = k
    · subst hk
      simpa [mapSet, findA] using ih
    · simpa [mapSet, findA, hk] using ih

theorem findA_mapSet_ne {α : Type} (m : List (GoStr × α)) {k k2 : GoStr}
    (v : α) (h : k2 ≠ k) : findA k2 (mapSet m k v) = findA k2 m := by
  have hne : ¬ (k : GoStr) = k2 := fun h2 => h h2.symm
  induction m with
  | nil => simp [mapSet, findA, hne]
  | cons p rest ih =>
    obtain ⟨k3, v3⟩ := p
    by_cases hk : k3 = k
    · subst hk
      simpa [mapSet, findA, hne] using ih
    · by_cases hk2 : k3 = k2
      · subst hk2
        simp [mapSet, findA, hk]
      · simpa [mapSet, findA, hk, hk2] using ih

theorem mem_mapSet {α : Type} {m : List (GoStr × α)} {k : GoStr} {v : α}
    {p : GoStr × α} (h : p ∈ mapSet m k v) : p = (k, v) ∨ p ∈ m := by
  rcases List.mem_append.mp h with h2 | h2
  · exact Or.inr (List.mem_of_mem_filter h2)
  · simp at h2
    exact Or.inl h2

/-! ## Path helpers (Go `path/filepath`, Unix rules)

`cleanPath`, `dirPath`, `joinPath` and `baseName` model the pure lexical
functions `filepath.Clean`, `filepath.Dir`, `filepath.Join` and
`filepath.Base` of the Go standard library, used by the reconciler and the
dependency analyzer. `cleanPath` uses the standard stack formulation of
Clean's lexical algorithm. -/

/-- `strings.Split` on a single-character separator. -/
def splitOnChar (c : Char) : GoStr → List GoStr
  | [] => [[]]
  | x :: xs =>
    match splitOnChar c xs with
    | [] => [[]]
    | h :: t => if x = c then [] :: h :: t else (x :: h) :: t

/-- One step of `filepath.Clean`: process a path component against the
stack of kept components (stack held in reverse). -/
def cleanStep (rooted : Bool) (stack : List GoStr) (comp : GoStr) :
    List GoStr :=
  if comp = [] ∨ comp = ['.'] then stack
  else if comp = ['.', '.'] then
    match stack with
    | top :: rest => if top = ['.', '.'] then comp :: stack else rest
    | [] => if rooted then [] else [comp]
  else comp :: stack

/-- `filepath.Clean` (Unix): empty path is `.`; `.` and empty components
drop; `..` pops a non-`..` component, is dropped at the root, and is kept
when relative with nothing to pop. -/
def cleanPath (s : GoStr) : GoStr :=
  if s = [] then ['.']
  else
    let rooted := s.head? = some '/'
    let comps := ((splitOnChar '/' s).foldl (cleanStep rooted) []).reverse
    let body := (comps.intersperse ['/']).flatten
    if rooted then '/' :: body
    else if body = [] then ['.'] else body

/-- `filepath.Dir`: everything up to and including the last separator,
then cleaned (`.` when there is no separator). -/
def dirPath (s : GoStr) : GoStr :=
  cleanPath ((s.reverse.dropWhile (fun c => c ≠ '/')).reverse)

/-- `filepath.Join` of two elements: non-empty elements joined with `/`,
then cleaned; all-empty input stays empty. -/
def joinPath (a b : GoStr) : GoStr :=
  if a = [] ∧ b = [] then []
  else if a = [] then cleanPath b
  else if b = [] then cleanPath a
  else cleanPath (a ++ '/' :: b)

/-- `filepath.Base`: `.` for the empty path, `/` for an all-separator
path, otherwise the last component after stripping trailing separators. -/
def baseName (s : GoStr) : GoStr :=
  if s = [] then ['.']
  else
    let t := (s.reverse.dropWhile (fun c => c = '/')).reverse
    if t = [] then ['/']
    else (t.reverse.takeWhile (fun c => c ≠ '/')).reverse

/-- `ResolveLoadPath` (dependency_analyzer): resolve a LOAD path against
the loading file's directory, then clean. -/
def resolveLoadPath (loadingFile loadPath : GoStr) : GoStr :=
  cleanPath (joinPath (dirPath loadingFile) loadPath)

/-! ## Decimal rendering (`strconv.FormatUint(h, 10)`) -/

/-- A decimal digit character. -/
def digitChar (d : ℕ) : Char :=
  match d with
  | 0 => '0' | 1 => '1' | 2 => '2' | 3 => '3' | 4 => '4'
  | 5 => '5' | 6 => '6' | 7 => '7' | 8 => '8' | _ => '9'

/-- `strconv.FormatUint(n, 10)`: the decimal digit string of `n`. -/
def decimalChars (n : ℕ) : GoStr :=
  if _h : n < 10 then [digitChar n]
  else decimalChars (n / 10) ++ [digitChar (n % 10)]
decreasing_by exact Nat.div_lt_self (by omega) (by omega)

theorem digitChar_ne_newline (d : ℕ) : digitChar d ≠ '\n' := by
  unfold digitChar
  split <;> decide

theorem decimalChars_ne_nil (n : ℕ) : decimalChars n ≠ [] := by
  unfold decimalChars
  split
  · simp
  · simp

theorem decimalChars_head_ne_newline (n : ℕ) :
    ∀ c, (decimalChars n).head? = some c → c ≠ '\n' := by
  induction n using Nat.strong_induction_on with
  | _ n ih =>
    intro c hc
    rw [decimalChars] at hc
    split at hc
    · simp at hc
      subst hc
      exact digitChar_ne_newline n
    · rw [List.head?_append_of_ne_nil _ (decimalChars_ne_nil (n / 10))] at hc
      exact ih (n / 10) (Nat.div_lt_self (by omega) (by omega)) c hc

/-! ## Data model (`internal/qmd`) -/

/-- `FileStatus` (result_parser.go). -/
inductive FileStatus
  | validated
  | failed
  | notAttempted
deriving DecidableEq, Repr

/-- `HashError` (result_parser.go). -/
structure HashError where
  hashID : ℕ
  error : GoStr
deriving DecidableEq, Repr

/-- `ValidationResult` (result_parser.go). `position` is `-1` for the
root, else the LOAD-order index. -/
structure ValidationResult where
  path : GoStr
  status : FileStatus
  compatible : Bool
  hashErrors : List HashError
  processErrors : List GoStr
  position : ℤ
  blockedBy : GoStr
deriving DecidableEq, Repr

/-- `ParsedOutput` (result_parser.go): the parsed applier output.
`writtenFiles` is parsed but never read by the reconciler and is omitted.
An empty `failureFile`/`panicFile` plays Go's empty-string role. -/
structure ParsedOutput where
  hashErrors : List (GoStr × List HashError)
  processErrors : List (GoStr × List GoStr)
  processedFiles : List GoStr
  failureFile : GoStr
  hadPanic : Bool
  panicMessage : GoStr
  panicFile : GoStr
deriving DecidableEq, Repr

/-- `DependencyInfo` (dependency_analyzer): `loadOrder` and `loadGraph`
are not read by any operation embedded here and are omitted. -/
structure DependencyInfo where
  rootFile : GoStr
  expectedLoads : List GoStr
deriving DecidableEq, Repr

/-- Well-formedness guaranteed by `ParseQmdiffOutput`: error-map entries
are only ever created by appending an element, so every stored list is
non-empty. -/
def WellFormedParsed (p : ParsedOutput) : Prop :=
  (∀ e ∈ p.hashErrors, e.2 ≠ []) ∧ (∀ e ∈ p.processErrors, e.2 ≠ [])

/-! ## Hash-position locator (`internal/qmd/hash_finder.go`) -/

/-- `HashWithPosition` (hash_extractor.go). -/
structure HashWithPosition where
  hash : ℕ
  line : ℕ
  column : ℕ
deriving DecidableEq, Repr

/-- The scan loop of `FindHashPositions`: walk the remaining content
tracking 1-based line/column; at a newline advance the line and reset the
column without probing; elsewhere emit every still-active hash whose
decimal string starts here and deactivate it, then advance the column. -/
def fhpAux : GoStr → ℕ → ℕ → List (GoStr × ℕ) → List HashWithPosition
  | [], _, _, _ => []
  | ch :: rest, line, col, active =>
    if ch = '\n' then fhpAux rest (line + 1) 1 active
    else
      let hits := active.filter (fun e => e.1.isPrefixOf (ch :: rest))
      hits.map (fun e => ⟨e.2, line, col⟩) ++
        fhpAux rest line (col + 1)
          (active.filter (fun e => ¬ e.1.isPrefixOf (ch :: rest)))

/-- `FindHashPositions`: find the first position of each given hash's
decimal string. Duplicate input hashes collapse to one probe entry, as in
the Go string-keyed map. -/
def findHashPositions (qmdContent : GoStr) (failedHashes : List ℕ) :
    List HashWithPosition :=
  if failedHashes = [] then []
  else
    fhpAux qmdContent 1 1
      (failedHashes.dedup.map (fun h => (decimalChars h, h)))


/-- An occurrence of `s` starting at index `i` of `c`. -/
def occursAt (c s : GoStr) (i : ℕ) : Bool :=
  s.isPrefixOf (c.drop i)

/-- The 1-based line of scan index `i`: one plus the newlines before it. -/
def lineAt (c : GoStr) (i : ℕ) : ℕ :=
  1 + (c.take i).count '\n'

/-- The 1-based column of scan index `i`: one plus the run of
non-newline characters directly before it. -/
def colAt (c : GoStr) (i : ℕ) : ℕ :=
  ((c.take i).reverse.takeWhile (fun ch2 => ch2 != '\n')).length + 1
/-! ## Name parsers (C7): hashtable filenames and tree directory names -/

/-- `ParseVersion` (pkg/hashtab/hashtab.go): split the filename on every
hyphen; the first part is the OS version, the second (if any) the device,
with device `unknown` for hyphen-free names. -/
def parseVersion (filename : GoStr) : GoStr × GoStr :=
  match splitOnChar '-' filename with
  | p0 :: p1 :: _ => (p0, p1)
  | [p0] => (p0, "unknown".toList)
  | [] => (filename, "unknown".toList)

/-- `parseNameComponents` (pkg/qmltree): split a tree directory name at
its last hyphen; device is empty for hyphen-free names. -/
def parseNameComponents (name : GoStr) : GoStr × GoStr :=
  if '-' ∈ name then
    (((name.reverse.dropWhile (fun c => c ≠ '-')).drop 1).reverse,
      (name.reverse.takeWhile (fun c => c ≠ '-')).reverse)
  else (name, [])

/-- Modelled from the spec: "The filename encodes
`\x7bosVersion\x7d-\x7bdevice\x7d` by splitting on the first `-`" — the
split-on-first-hyphen parser the claim says both name parsers implement.
The spec fixes no device for hyphen-free names; this model returns the
empty device there. -/
def splitFirstHyphen (name : GoStr) : GoStr × GoStr :=
  if '-' ∈ name then
    (name.takeWhile (fun c => c ≠ '-'), (name.dropWhile (fun c => c ≠ '-')).drop 1)
  else (name, [])

/-! ## Result reconciler (`internal/qmd/result_parser.go`) -/

/-- The suffix-match fallback of `ReconcileResults`: the first hash-error
entry whose key ends with the probe string. -/
def findSuffixHash (m : List (GoStr × List HashError)) (probe : GoStr) :
    Option (List HashError) :=
  match m with
  | [] => none
  | (k, v) :: rest =>
    if probe.isSuffixOf k then some v else findSuffixHash rest probe

/-- An exact/basename hash-error hit on the root: append the errors and
demote to failed. -/
def applyRootHashHit (r : ValidationResult) (o : Option (List HashError)) :
    ValidationResult :=
  match o with
  | some hs =>
    { r with hashErrors := r.hashErrors ++ hs, compatible := false,
             status := .failed }
  | none => r

/-- An exact/basename process-error hit on the root: append the errors
and demote to failed. -/
def applyRootProcHit (r : ValidationResult) (o : Option (List GoStr)) :
    ValidationResult :=
  match o with
  | some ps =>
    { r with processErrors := r.processErrors ++ ps, compatible := false,
             status := .failed }
  | none => r

/-- Root attribution of `ReconcileResults` (lines 200–259): hash errors
under the exact path, the basename, then — only when nothing attached —
the first suffix-matching key; process errors under the exact path and
the basename; finally the panic-file check. -/
def attribRoot (depInfo : DependencyInfo) (p : ParsedOutput) :
    ValidationResult :=
  let rootBase := baseName depInfo.rootFile
  let r0 : ValidationResult := ⟨rootBase, .validated, true, [], [], -1, []⟩
  let r1 : ValidationResult := applyRootHashHit r0 (findA depInfo.rootFile p.hashErrors)
  let r2 : ValidationResult := applyRootHashHit r1 (findA rootBase p.hashErrors)
  let r3 : ValidationResult :=
    if r2.hashErrors = [] then
      applyRootHashHit r2 (findSuffixHash p.hashErrors rootBase)
    else r2
  let r4 : ValidationResult := applyRootProcHit r3 (findA depInfo.rootFile p.processErrors)
  let r5 : ValidationResult := applyRootProcHit r4 (findA rootBase p.processErrors)
  if p.panicFile ≠ [] ∧ p.panicFile = rootBase then
    { r5 with
      status := .failed
      compatible := false
      processErrors :=
        r5.processErrors ++ ["qmldiff panicked: ".toList ++ p.panicMessage] }
  else r5

/-- Hash errors under the exact LOAD-statement key (lines 313–316):
assign and mark incompatible. -/
def depHashExact (p : ParsedOutput) (expectedFile : GoStr)
    (r : ValidationResult) : ValidationResult :=
  match findA expectedFile p.hashErrors with
  | some hs => { r with hashErrors := hs, compatible := false }
  | none => r

/-- Hash errors under the resolved absolute key (lines 318–321):
append and mark incompatible. -/
def depHashResolved (p : ParsedOutput) (resolved : GoStr)
    (r : ValidationResult) : ValidationResult :=
  match findA resolved p.hashErrors with
  | some hs =>
    { r with hashErrors := r.hashErrors ++ hs, compatible := false }
  | none => r

/-- Hash errors under a suffix-matching key (lines 323–331): consulted
only when nothing attached yet. -/
def depHashSuffix (p : ParsedOutput) (expectedFile : GoStr)
    (r : ValidationResult) : ValidationResult :=
  if r.hashErrors = [] then
    match findSuffixHash p.hashErrors expectedFile with
    | some hs =>
      { r with hashErrors := r.hashErrors ++ hs, compatible := false }
    | none => r
  else r

/-- Process errors under the exact key (lines 333–336): assign and mark
incompatible. -/
def depProcExact (p : ParsedOutput) (expectedFile : GoStr)
    (r : ValidationResult) : ValidationResult :=
  match findA expectedFile p.processErrors with
  | some ps => { r with processErrors := ps, compatible := false }
  | none => r

/-- Process errors under the resolved key (lines 337–340): append and
mark incompatible. There is no suffix-match step for process errors. -/
def depProcResolved (p : ParsedOutput) (resolved : GoStr)
    (r : ValidationResult) : ValidationResult :=
  match findA resolved p.processErrors with
  | some ps =>
    { r with processErrors := r.processErrors ++ ps, compatible := false }
  | none => r

/-- The error-attachment chain for a processed dependency (lines
312–344): hash errors under exact, resolved, then suffix keys; process
errors under exact and resolved keys. -/
def depAttach (p : ParsedOutput) (expectedFile resolved : GoStr)
    (r : ValidationResult) : ValidationResult :=
  depProcResolved p resolved
    (depProcExact p expectedFile
      (depHashSuffix p expectedFile
        (depHashResolved p resolved
          (depHashExact p expectedFile r))))

/-- Outcome for one dependency once the walk is known not to be
short-circuited (lines 288–349 of `ReconcileResults`): the failure-file
and panic-file checks, then for processed files the attachment chain,
with demotion to failed when any error list ends up non-empty. -/
def depOutcome (p : ParsedOutput) (expectedFile resolved : GoStr) (i : ℕ) :
    ValidationResult :=
  let r0 : ValidationResult :=
    ⟨expectedFile, .validated, true, [], [], (i : ℤ), []⟩
  if p.failureFile = expectedFile ∨ p.failureFile = resolved then
    { r0 with
      status := .failed
      compatible := false
      processErrors := ["LOAD failed: Cannot read file".toList] }
  else if p.panicFile ≠ [] ∧ p.panicFile = baseName expectedFile then
    { r0 with
      status := .failed
      compatible := false
      processErrors := ["qmldiff panicked: ".toList ++ p.panicMessage] }
  else if expectedFile ∈ p.processedFiles ∨ resolved ∈ p.processedFiles then
    let r5 : ValidationResult := depAttach p expectedFile resolved r0
    if r5.hashErrors ≠ [] ∨ r5.processErrors ≠ [] then
      { r5 with status := .failed }
    else r5
  else r0

/-- One iteration of the dependency walk of `ReconcileResults` (lines
269–352), over the accumulated results map and the failure point. -/
def depStep (depInfo : DependencyInfo) (p : ParsedOutput)
    (st : List (GoStr × ValidationResult) × ℤ) (e : ℕ × GoStr) :
    List (GoStr × ValidationResult) × ℤ :=
  let expectedFile := e.2
  let i := e.1
  let resolved := resolveLoadPath depInfo.rootFile expectedFile
  if st.2 ≠ -1 ∧ (i : ℤ) > st.2 then
    (mapSet st.1 expectedFile
      ⟨expectedFile, .notAttempted, false, [], [], (i : ℤ),
        depInfo.expectedLoads.getD st.2.toNat []⟩, st.2)
  else
    (mapSet st.1 expectedFile (depOutcome p expectedFile resolved i),
     if (p.failureFile = expectedFile ∨ p.failureFile = resolved) ∨
        (p.panicFile ≠ [] ∧ p.panicFile = baseName expectedFile) then (i : ℤ)
     else st.2)

/-- The fatal-panic early return of `ReconcileResults` (lines 169–191):
root failed with the synthesized panic message, every dependency not
attempted and blocked by the root. -/
def panicResults (depInfo : DependencyInfo) (p : ParsedOutput) :
    List (GoStr × ValidationResult) :=
  let rootBase := baseName depInfo.rootFile
  depInfo.expectedLoads.enum.foldl
    (fun results e =>
      mapSet results e.2
        ⟨e.2, .notAttempted, false, [], [], (e.1 : ℤ), rootBase⟩)
    (mapSet [] rootBase
      ⟨rootBase, .failed, false, [],
        ["qmldiff panicked: ".toList ++ p.panicMessage], -1, []⟩)

/-- `ReconcileResults` (result_parser.go lines 159–358). -/
def reconcileResults (depInfo : DependencyInfo) (p : ParsedOutput) :
    List (GoStr × ValidationResult) :=
  if p.hadPanic = true ∧ p.hashErrors = [] ∧ p.panicFile = [] then
    panicResults depInfo p
  else
    (depInfo.expectedLoads.enum.foldl (depStep depInfo p)
      (mapSet [] (baseName depInfo.rootFile) (attribRoot depInfo p), -1)).1

/-- `createErrorResults` (cli_validator.go lines 397–420): root failed
with the given message, every dependency not attempted, with no
blocked-by attribution. -/
def createErrorResults (depInfo : DependencyInfo) (errorMsg : GoStr) :
    List (GoStr × ValidationResult) :=
  let rootBase := baseName depInfo.rootFile
  depInfo.expectedLoads.enum.foldl
    (fun results e =>
      mapSet results e.2
        ⟨e.2, .notAttempted, false, [],
          ["not attempted due to prior failure".toList], (e.1 : ℤ), []⟩)
    (mapSet [] rootBase ⟨rootBase, .failed, false, [], [errorMsg], -1, []⟩)

/-! ## Phase-A reconciliation (`reconcileHashErrors`, two-phase
cli_validator revision) -/

/-- `CheckCompatibilityResult` (package qmd): declared outside the given
sources; fields reconstructed from every use site (`CheckCompatibility`
and `reconcileHashErrors`). -/
structure CheckCompatibilityResult where
  hasErrors : Bool
  totalErrors : ℕ
  hashErrors : List (GoStr × List ℕ)
deriving DecidableEq, Repr

/-- The root loop of `reconcileHashErrors`: every hash-error entry whose
basename equals the root basename or whose key ends with it demotes the
root and appends its hashes. -/
def rhRoot (rootBase : GoStr) (m : List (GoStr × List ℕ))
    (r : ValidationResult) : ValidationResult :=
  m.foldl
    (fun r e =>
      if baseName e.1 = rootBase ∨ rootBase.isSuffixOf e.1 then
        { r with
          status := .failed
          compatible := false
          hashErrors := r.hashErrors ++
            e.2.map (fun h =>
              ⟨h, "Cannot resolve hash ".toList ++ decimalChars h⟩) }
      else r)
    r

/-- The dependency probe of `reconcileHashErrors`: the first hash-error
entry whose basename equals the file's basename or whose key ends with
the file's path. -/
def rhFindDep (expectedFile : GoStr) :
    List (GoStr × List ℕ) → Option (List ℕ)
  | [] => none
  | (k, v) :: rest =>
    if baseName k = baseName expectedFile ∨ expectedFile.isSuffixOf k then
      some v
    else rhFindDep expectedFile rest

/-- `reconcileHashErrors` (two-phase cli_validator revision, lines
257–314): Phase-A hash errors distributed over root and dependencies by
basename/suffix matching. -/
def reconcileHashErrors (depInfo : DependencyInfo)
    (compat : CheckCompatibilityResult) :
    List (GoStr × ValidationResult) :=
  let rootBase := baseName depInfo.rootFile
  depInfo.expectedLoads.enum.foldl
    (fun results e =>
      let r0 : ValidationResult :=
        ⟨e.2, .validated, true, [], [], (e.1 : ℤ), []⟩
      let r :=
        match rhFindDep e.2 compat.hashErrors with
        | some hs =>
          { r0 with
            status := .failed
            compatible := false
            hashErrors := hs.map (fun h =>
              ⟨h, "Cannot resolve hash ".toList ++ decimalChars h⟩) }
        | none => r0
      mapSet results e.2 r)
    (mapSet [] rootBase
      (rhRoot rootBase compat.hashErrors
        ⟨rootBase, .validated, true, [], [], -1, []⟩))

/-! ## Two-phase applier adapter (`ValidateWithDependencies`, two-phase
cli_validator revision, lines 319–416) -/

/-- `strings.Contains`: `sub` occurs inside `s`. -/
def containsSub : GoStr → GoStr → Bool
  | [], sub => sub.isEmpty
  | c :: rest, sub => sub.isPrefixOf (c :: rest) || containsSub rest sub

/-- `strings.TrimSpace`, over the ASCII whitespace applier output can
contain. -/
def trimSpace (s : GoStr) : GoStr :=
  let ws := fun c =>
    c = ' ' ∨ c = '\t' ∨ c = '\n' ∨ c = '\x0B' ∨ c = '\x0C' ∨ c = '\r'
  ((s.dropWhile ws).reverse.dropWhile ws).reverse

/-- `extractPanicMessage` (cli_validator.go): the first output line
containing the panic signature, trimmed. -/
def extractPanicMessage (output : GoStr) : GoStr :=
  match (splitOnChar '\n' output).find?
      (fun line => containsSub line "panicked at".toList) with
  | some line => trimSpace line
  | none => "unknown panic".toList

/-- The two applier invocations of one cell. -/
inductive PhaseCall
  | checkCompat
  | applyDiffs
deriving DecidableEq, Repr

/-- Oracle for one cell's external effects: the outcome of
`BuildDependencyInfo`, of the `check-compatibility` invocation (as
returned by `CheckCompatibility`, which folds exit-code handling into
`hasErrors`), of `os.MkdirTemp` for the output directory, and of the
`apply-diffs` invocation (combined output, its parse, and whether the
command returned a non-nil error). -/
structure CellWorld where
  dep : Except GoStr DependencyInfo
  compat : Except GoStr CheckCompatibilityResult
  outputDir : Except GoStr Unit
  applyOutput : GoStr
  applyParsed : ParsedOutput
  applyErr : Bool

/-- The Go pair returned by `ValidateWithDependencies`: a result map and
an error may both be set (the panic path returns both). -/
structure VwdReturn where
  results : Option (List (GoStr × ValidationResult))
  err : Option GoStr
deriving DecidableEq

/-- `ValidateWithDependencies` (two-phase revision): Phase A
(`check-compatibility`) first; on Phase-A hash errors return
`reconcileHashErrors` without running Phase B; otherwise run Phase B
(`apply-diffs`) and reconcile, with the panic fallback. The second
component records the applier commands actually invoked, in order. -/
def validateWithDependencies (w : CellWorld) : VwdReturn × List PhaseCall :=
  match w.dep with
  | .error e =>
    (⟨none, some ("failed to build dependency info: ".toList ++ e)⟩, [])
  | .ok depInfo =>
    match w.compat with
    | .error e =>
      (⟨none, some ("check-compatibility failed: ".toList ++ e)⟩,
        [.checkCompat])
    | .ok compatResult =>
      if compatResult.hasErrors = true then
        (⟨some (reconcileHashErrors depInfo compatResult), none⟩,
          [.checkCompat])
      else
        match w.outputDir with
        | .error e =>
          (⟨none, some ("failed to create output dir: ".toList ++ e)⟩,
            [.checkCompat])
        | .ok _ =>
          if w.applyErr = true ∧ w.applyParsed.hadPanic = true then
            (⟨some (createErrorResults depInfo
                ("qmldiff panicked: ".toList ++
                  extractPanicMessage w.applyOutput)),
              some "qmldiff panicked".toList⟩,
              [.checkCompat, .applyDiffs])
          else
            (⟨some (reconcileResults depInfo w.applyParsed), none⟩,
              [.checkCompat, .applyDiffs])

/-! ## Batch validation (`ValidateMultipleQMDsWithCLI`,
`flattenDependencyResults`) -/

/-- `TreeValidationError` (cli_validator.go). -/
structure TreeValidationError where
  filePath : GoStr
  error : GoStr
  line : ℤ
  column : ℤ
deriving DecidableEq, Repr

/-- `TreeValidationResult` (cli_validator.go). -/
structure TreeValidationResult where
  filesProcessed : ℕ
  filesModified : ℕ
  filesWithErrors : ℕ
  errors : List TreeValidationError
  hasHashErrors : Bool
  failedHashes : List ℕ
  dependencyResults : List (GoStr × ValidationResult)
deriving DecidableEq, Repr

/-- `BatchTreeValidationResult` (cli_validator.go). -/
structure BatchTreeValidationResult where
  results : List (GoStr × TreeValidationResult)
  errors : List (GoStr × GoStr)
deriving DecidableEq, Repr

/-- One file's accumulation step inside `flattenDependencyResults`
(cli_validator.go lines 337–366). -/
def flattenStep (acc : TreeValidationResult) (e : GoStr × ValidationResult) :
    TreeValidationResult :=
  let fr := e.2
  let acc1 : TreeValidationResult :=
    { acc with
      filesProcessed := acc.filesProcessed +
        (if fr.status = FileStatus.validated ∨ fr.status = FileStatus.failed
         then 1 else 0)
      filesModified := acc.filesModified +
        (if fr.status ≠ FileStatus.notAttempted then 1 else 0) }
  let acc2 : TreeValidationResult :=
    if fr.position = -1 then
      { acc1 with
        failedHashes :=
          acc1.failedHashes ++ fr.hashErrors.map (fun he => he.hashID)
        errors := acc1.errors ++
          fr.hashErrors.map
            (fun he => TreeValidationError.mk e.1 he.error 0 0) }
    else acc1
  let acc3 : TreeValidationResult :=
    { acc2 with
      errors := acc2.errors ++
        fr.processErrors.map (fun pe => TreeValidationError.mk e.1 pe 0 0) }
  if fr.compatible = false then
    { acc3 with filesWithErrors := acc3.filesWithErrors + 1 }
  else acc3

/-- `flattenDependencyResults` (cli_validator.go lines 316–382). -/
def flattenDependencyResults (depResults : List (GoStr × ValidationResult))
    (validationErr : Option GoStr) : TreeValidationResult :=
  match validationErr with
  | some e =>
    ⟨0, 0, 1, [⟨"validation".toList, e, 0, 0⟩], false, [], depResults⟩
  | none =>
    let r := depResults.foldl flattenStep ⟨0, 0, 0, [], false, [], depResults⟩
    { r with
      hasHashErrors := !r.failedHashes.isEmpty ||
        depResults.any (fun e => !e.2.hashErrors.isEmpty) }

/-- One iteration of `ValidateMultipleQMDsWithCLI` (cli_validator.go
lines 58–72): validate the patch, flatten into the results map under the
patch path, and record its error — when there is one — in the errors
map. -/
def vmqStep (validate : GoStr → VwdReturn)
    (acc : BatchTreeValidationResult) (qmdPath : GoStr) :
    BatchTreeValidationResult :=
  let r := validate qmdPath
  let treeResult := flattenDependencyResults (r.results.getD []) r.err
  { results := mapSet acc.results qmdPath treeResult
    errors :=
      match r.err with
      | some e => mapSet acc.errors qmdPath e
      | none => acc.errors }

/-- `ValidateMultipleQMDsWithCLI` (cli_validator.go lines 52–75): run
every patch through `ValidateWithDependencies` (abstracted to the
per-path outcome `validate`), and return a nil top-level error. -/
def validateMultipleQMDsWithCLI (qmdPaths : List GoStr)
    (validate : GoStr → VwdReturn) :
    BatchTreeValidationResult × Option GoStr :=
  (qmdPaths.foldl (vmqStep validate) ⟨[], []⟩, none)

/-! ## Validation service loop (`service.go`, `ValidateAgainstAllTrees`) -/

/-- `Hashtab` (pkg/hashtab): the entry map is not read by the service
loop and is omitted. -/
structure Hashtab where
  name : GoStr
  path : GoStr
  osVersion : GoStr
  device : GoStr
deriving DecidableEq, Repr

/-- `Tree` (pkg/qmltree). -/
structure Tree where
  name : GoStr
  path : GoStr
  osVersion : GoStr
  device : GoStr
  fileCount : ℕ
deriving DecidableEq, Repr

/-- `TreeComparisonResult` (service.go). -/
structure TreeComparisonResult where
  hashtable : GoStr
  osVersion : GoStr
  device : GoStr
  compatible : Bool
  errorDetail : GoStr
  missingHashes : List HashWithPosition
  validationMode : GoStr
  filesProcessed : ℕ
  filesModified : ℕ
  filesWithErrors : ℕ
  treeValidationUsed : Bool
  dependencyResults : List (GoStr × ValidationResult)
deriving DecidableEq, Repr

/-- The collaborators of `ValidateAgainstAllTrees`: the tree catalog
(`GetTreeByName` is a name-keyed map lookup), whether a job store was
passed, and the staging-plus-batch effect of one hashtable — an
`os.MkdirTemp`/`os.WriteFile` failure, or the staged qmdPaths together
with the `ValidateMultipleQMDsWithCLI` batch result. -/
structure ServiceEnv where
  trees : List Tree
  hasJob : Bool
  runBatch : Hashtab → Tree → Except GoStr (List GoStr × BatchTreeValidationResult)

/-- `GetTreeByName` (pkg/qmltree/service.go): name-keyed map lookup. -/
def getTreeByName (env : ServiceEnv) (name : GoStr) : Option Tree :=
  findA name (env.trees.map (fun t => (t.name, t)))

/-- Round `a / b` (`b ≠ 0`) to the nearest integer, ties to the even
one — IEEE 754's default rounding of a scaled significand. -/
def rndHalfEvenN (a b : ℕ) : ℕ :=
  let n := a / b
  let r := a % b
  if 2 * r < b then n
  else if b < 2 * r then n + 1
  else if n % 2 = 0 then n else n + 1

/-- `⌊log2 (a / b)⌋` by fuelled normalization of `a / b` into `[1, 2)`;
the fuel bounds the doublings/halvings needed. -/
def log2FloorN : ℕ → ℕ → ℕ → ℤ
  | 0, _, _ => 0
  | fuel + 1, a, b =>
    if a < b then log2FloorN fuel (2 * a) b - 1
    else if a < 2 * b then 0
    else log2FloorN fuel a (2 * b) + 1

/-- Round the nonnegative rational `a / b` (`b ≠ 0`) to the nearest
`float64` (round-to-nearest, ties-to-even), as a numerator/denominator
pair: scale the 53-bit significand by the binade, round it half-even,
and scale back; below the normal range the ulp is pinned at
`2 ^ (-1074)`. Finite range only — no overflow to infinity, which no
list length reaches. -/
def floatRoundN (a b : ℕ) : ℕ × ℕ :=
  if a = 0 then (0, 1)
  else
    let e := log2FloorN (a + b + 2) a b
    if e < -1022 then
      (rndHalfEvenN (a * 2 ^ 1074) b, 2 ^ 1074)
    else if e ≤ 52 then
      (rndHalfEvenN (a * 2 ^ (52 - e).toNat) b, 2 ^ (52 - e).toNat)
    else
      (rndHalfEvenN a (b * 2 ^ (e - 52).toNat) * 2 ^ (e - 52).toNat, 1)

/-- The progress value pushed after each completed hashtable (service.go
lines 243–246 and 332–336):
`10 + int(float64(completed)/float64(total)*90)`. Each `float64` step is
modelled exactly: the two integer-to-double conversions, the division of
the two doubles, and the product with the exactly representable `90` are
each rounded to the nearest double (ties to even), and the final
`int(...)` truncates toward zero (floor, as the value is nonnegative).
The float division makes this differ from the exact
`10 + ⌊90 · completed / total⌋` at, e.g., `completed = 7, total = 10`,
where the double quotient is just below `0.7` and the product truncates
to `62`, not `63`. -/
def progressPushed (completed total : ℕ) : ℤ :=
  let fc := floatRoundN completed 1
  let ft := floatRoundN total 1
  let fq := if ft.1 = 0 then (0, 1) else floatRoundN (fc.1 * ft.2) (fc.2 * ft.1)
  let fp := floatRoundN (fq.1 * 90) fq.2
  10 + (fp.1 / fp.2 : ℕ)

/-- Modelled from the spec: the claimed per-cell progress value
`10 + round(90 · completed / totalHashtables)`. -/
def progressClaimed (completed total : ℕ) : ℤ :=
  10 + round ((90 * completed : ℚ) / total)

/-- The "tree unavailable" synthetic cell (service.go lines 230–238). -/
def unavailableCell (ht : Hashtab) : TreeComparisonResult where
  hashtable := ht.name
  osVersion := ht.osVersion
  device := ht.device
  compatible := true
  errorDetail := "tree unavailable, using legacy mode".toList
  missingHashes := []
  validationMode := "hash".toList
  filesProcessed := 0
  filesModified := 0
  filesWithErrors := 0
  treeValidationUsed := false
  dependencyResults := []

/-- The cell built for the `i`-th file against a hashtable with a
matching tree (service.go lines 281–330). -/
def cellForFile (qmdContents qmdPaths : List GoStr)
    (batch : BatchTreeValidationResult) (ht : Hashtab) (i : ℕ) :
    TreeComparisonResult :=
  let qmdPath := qmdPaths.getD i []
  let base : TreeComparisonResult :=
    ⟨ht.name, ht.osVersion, ht.device, false, [], [], "tree".toList,
      0, 0, 0, true, []⟩
  match findA qmdPath batch.errors with
  | some fileErr =>
    { base with
      compatible := false
      errorDetail := "validation error: ".toList ++ fileErr }
  | none =>
    match findA qmdPath batch.results with
    | some treeResult =>
      let base :=
        { base with
          filesProcessed := treeResult.filesProcessed
          filesModified := treeResult.filesModified
          filesWithErrors := treeResult.filesWithErrors }
      if treeResult.hasHashErrors = true ∨ treeResult.filesWithErrors > 0 then
        let base := { base with compatible := false }
        if treeResult.failedHashes ≠ [] then
          let positions :=
            findHashPositions (qmdContents.getD i []) treeResult.failedHashes
          { base with
            missingHashes := positions
            errorDetail := "missing ".toList ++
              decimalChars positions.length ++ " hash(es)".toList }
        else if treeResult.filesWithErrors > 0 then
          { base with
            errorDetail := decimalChars treeResult.filesWithErrors ++
              " file(s) had processing errors".toList }
        else base
      else { base with compatible := true }
    | none =>
      { base with
        compatible := false
        errorDetail := "no validation result received".toList }

/-- The mutable state of the service loop: the per-file results map, the
completed-hashtable counter, and the progress values pushed so far. -/
structure SvcState where
  results : List (GoStr × List TreeComparisonResult)
  completed : ℕ
  pushes : List ℤ
deriving DecidableEq, Repr

/-- `results[filename] = append(results[filename], c)`. -/
def appendCell (results : List (GoStr × List TreeComparisonResult))
    (filename : GoStr) (c : TreeComparisonResult) :
    List (GoStr × List TreeComparisonResult) :=
  mapSet results filename ((findA filename results).getD [] ++ [c])

/-- One hashtable iteration of `ValidateAgainstAllTrees` (service.go
lines 218–337): no matching tree yields one synthetic cell per file; a
staging failure aborts the whole call; otherwise one per-file cell from
the batch result. Each completed iteration advances the counter and
pushes one progress value when a job store is attached. -/
def svcStep (env : ServiceEnv) (filenames qmdContents : List GoStr)
    (total : ℕ) (st : SvcState) (ht : Hashtab) : Except GoStr SvcState :=
  match getTreeByName env ht.name with
  | none =>
    let results :=
      filenames.foldl (fun r f => appendCell r f (unavailableCell ht))
        st.results
    .ok ⟨results, st.completed + 1,
      st.pushes ++
        (if env.hasJob then [progressPushed (st.completed + 1) total] else [])⟩
  | some tree =>
    match env.runBatch ht tree with
    | .error e => .error e
    | .ok staged =>
      let results :=
        filenames.enum.foldl
          (fun r e =>
            appendCell r e.2 (cellForFile qmdContents staged.1 staged.2 ht e.1))
          st.results
      .ok ⟨results, st.completed + 1,
        st.pushes ++
          (if env.hasJob then [progressPushed (st.completed + 1) total] else [])⟩

/-- The sequential hashtable loop of `ValidateAgainstAllTrees`: a
staging failure aborts with the error, every other iteration threads the
state. -/
def svcLoop (env : ServiceEnv) (filenames qmdContents : List GoStr)
    (total : ℕ) : List Hashtab → SvcState → Except GoStr SvcState
  | [], st => .ok st
  | ht :: rest, st =>
    match svcStep env filenames qmdContents total st ht with
    | .error e => .error e
    | .ok st2 => svcLoop env filenames qmdContents total rest st2

/-- `ValidateAgainstAllTrees` (service.go lines 192–345): the sequential
loop over the hashtable snapshot, recording the progress values pushed
to the job store. -/
def validateAgainstAllTrees (env : ServiceEnv)
    (qmdContents filenames : List GoStr) (hashtables : List Hashtab) :
    Except GoStr SvcState :=
  if qmdContents.length ≠ filenames.length then
    .error "mismatched qmdContents and filenames lengths".toList
  else if hashtables = [] then .error "no hashtables loaded".toList
  else
    let init : SvcState :=
      ⟨filenames.map (fun f => (f, [])), 0, if env.hasJob then [10] else []⟩
    match svcLoop env filenames qmdContents hashtables.length
        hashtables init with
    | .error e => .error e
    | .ok st =>
      .ok { st with
        pushes := st.pushes ++ (if env.hasJob then [100] else []) }

/-! ## Job registry (`internal/jobs/store.go`) -/

/-- `Job` (store.go): the fields the janitor reads. `completedAt` is an
abstract instant in nanoseconds. -/
structure Job where
  status : GoStr
  message : GoStr
  progress : ℤ
  completedAt : Option ℤ
deriving DecidableEq, Repr

/-- The registry state: the job map and, per job, the number of
subscriber channels (all the cleanup paths read of them). -/
structure StoreState where
  jobs : List (GoStr × Job)
  watchers : List (GoStr × ℕ)
deriving DecidableEq, Repr

/-- `5 * time.Minute` in nanoseconds. -/
def ttlNanos : ℤ := 300000000000

/-- Whether the janitor removes this entry at instant `now`
(store.go lines 202–209): completed more than the TTL ago, with no
active watchers. -/
def janitorRemoves (now : ℤ) (st : StoreState) (e : GoStr × Job) : Bool :=
  match e.2.completedAt with
  | some t => decide (now - t > ttlNanos) && ((findA e.1 st.watchers).getD 0 == 0)
  | none => false

/-- `cleanupOldJobs` (store.go lines 195–211): the background janitor
pass. -/
def cleanupOldJobs (now : ℤ) (st : StoreState) : StoreState :=
  let removedIds :=
    (st.jobs.filter (fun e => janitorRemoves now st e)).map (fun e => e.1)
  ⟨st.jobs.filter (fun e => ! janitorRemoves now st e),
   st.watchers.filter (fun w => w.1 ∉ removedIds)⟩

/-- `Cleanup(id)` (store.go lines 174–184): close every subscriber
channel of the job, then remove its watcher list and the job itself —
with no condition on `completedAt` or on subscribers. -/
def cleanupJob (st : StoreState) (id : GoStr) : StoreState :=
  ⟨st.jobs.filter (fun e => e.1 ≠ id),
   st.watchers.filter (fun w => w.1 ≠ id)⟩

/-! ## Helper lemmas -/

theorem findA_cons {α : Type} (k k2 : GoStr) (v2 : α)
    (rest : List (GoStr × α)) :
    findA k ((k2, v2) :: rest) = if k2 = k then some v2 else findA k rest :=
  rfl

theorem findA_map_eq_none {α : Type} {m : List (GoStr × α)} {k : GoStr}
    (h : ∀ v, (k, v) ∉ m) : findA k m = none := by
  cases h2 : findA k m with
  | none => rfl
  | some v => exact absurd (findA_mem h2) (h v)

theorem splitOnChar_cons_eq (c x : Char) (xs : GoStr) :
    splitOnChar c (x :: xs) =
      match splitOnChar c xs with
      | [] => [[]]
      | h :: t => if x = c then [] :: h :: t else (x :: h) :: t :=
  rfl

theorem splitOnChar_ne_nil (c : Char) (s : GoStr) : splitOnChar c s ≠ [] := by
  cases s with
  | nil => simp [splitOnChar]
  | cons x xs =>
    rw [splitOnChar_cons_eq]
    match h : splitOnChar c xs with
    | [] => simp
    | h2 :: t =>
      dsimp only
      split <;> simp

theorem splitOnChar_of_not_mem {c : Char} {a : GoStr} (h : c ∉ a) :
    splitOnChar c a = [a] := by
  induction a with
  | nil => rfl
  | cons x xs ih =>
    have hx : ¬ x = c := fun hc => h (hc ▸ List.mem_cons_self x xs)
    have hxs : c ∉ xs := fun hc => h (List.mem_cons_of_mem x hc)
    rw [splitOnChar_cons_eq, ih hxs]
    simp [hx]

theorem splitOnChar_append_sep {c : Char} {a : GoStr} (b : GoStr)
    (h : c ∉ a) : splitOnChar c (a ++ c :: b) = a :: splitOnChar c b := by
  induction a with
  | nil =>
    rw [List.nil_append, splitOnChar_cons_eq]
    match h2 : splitOnChar c b with
    | [] => exact absurd h2 (splitOnChar_ne_nil c b)
    | h3 :: t => simp
  | cons x xs ih =>
    have hx : ¬ x = c := fun hc => h (hc ▸ List.mem_cons_self x xs)
    have hxs : c ∉ xs := fun hc => h (List.mem_cons_of_mem x hc)
    rw [List.cons_append, splitOnChar_cons_eq, ih hxs]
    simp [hx]

theorem dropWhile_append_all {p : Char → Bool} {l1 : GoStr} (l2 : GoStr)
    (h : ∀ x ∈ l1, p x = true) :
    (l1 ++ l2).dropWhile p = l2.dropWhile p := by
  induction l1 with
  | nil => rfl
  | cons x xs ih =>
    rw [List.cons_append, List.dropWhile_cons_of_pos (h x (List.mem_cons_self x xs))]
    exact ih (fun y hy => h y (List.mem_cons_of_mem x hy))

theorem takeWhile_append_stop {p : Char → Bool} {l1 : GoStr} {x : Char}
    (l2 : GoStr) (h : ∀ y ∈ l1, p y = true) (hx : ¬ p x = true) :
    (l1 ++ x :: l2).takeWhile p = l1 := by
  induction l1 with
  | nil =>
    rw [List.nil_append, List.takeWhile_cons_of_neg hx]
  | cons y ys ih =>
    rw [List.cons_append,
      List.takeWhile_cons_of_pos (h y (List.mem_cons_self y ys)),
      ih (fun z hz => h z (List.mem_cons_of_mem y hz))]

theorem findA_filter_keep {α : Type} (q : GoStr × α → Bool)
    {m : List (GoStr × α)} {k : GoStr} {v : α}
    (hn : (m.map Prod.fst).Nodup) (h : findA k m = some v) :
    findA k (m.filter q) = if q (k, v) = true then some v else none := by
  induction m with
  | nil => simp [findA] at h
  | cons e rest ih =>
    obtain ⟨k2, v2⟩ := e
    rw [List.map_cons, List.nodup_cons] at hn
    rw [findA_cons] at h
    by_cases hk : k2 = k
    · subst hk
      rw [if_pos rfl] at h
      injection h with hv
      have hnone : findA k2 (rest.filter q) = none := by
        apply findA_map_eq_none
        intro v3 hmem
        exact hn.1
          (List.mem_map.mpr ⟨(k2, v3), List.mem_of_mem_filter hmem, rfl⟩)
      rw [List.filter_cons, hv]
      by_cases hq : q (k2, v) = true
      · rw [if_pos hq, findA_cons, if_pos rfl, if_pos hq]
      · rw [if_neg hq, hnone, if_neg hq]
    · rw [if_neg hk] at h
      have := ih hn.2 h
      by_cases hq : q (k2, v2) = true
      · rw [List.filter_cons, if_pos hq, findA_cons, if_neg hk, this]
      · rw [List.filter_cons, if_neg hq, this]

/-! ## C7 — name-parser agreement -/

/-- C7 (amended): on a name with exactly one hyphen — the documented
`osVersion-device` shape — the hashtable filename parser, the tree
directory-name parser, and the spec's split-on-first-hyphen rule all
agree, returning the part before the hyphen and the part after it. (On
other names they differ: see the counterexample.) -/
theorem parseVersion_eq_parseNameComponents_single_hyphen
    (a b : GoStr) (ha : '-' ∉ a) (hb : '-' ∉ b) :
    parseVersion (a ++ '-' :: b) = (a, b) ∧
    parseNameComponents (a ++ '-' :: b) = (a, b) ∧
    splitFirstHyphen (a ++ '-' :: b) = (a, b) := by
  have hmem : '-' ∈ a ++ '-' :: b :=
    List.mem_append_right a (List.mem_cons_self _ _)
  have ha2 : ∀ x ∈ a, (decide (x ≠ '-')) = true := by
    intro x hx
    simp only [decide_eq_true_eq]
    intro hc
    subst hc
    exact ha hx
  have hb2 : ∀ x ∈ b.reverse, (decide (x ≠ '-')) = true := by
    intro x hx
    simp only [decide_eq_true_eq]
    intro hc
    subst hc
    exact hb (List.mem_reverse.mp hx)
  refine ⟨?_, ?_, ?_⟩
  · unfold parseVersion
    rw [splitOnChar_append_sep b ha, splitOnChar_of_not_mem hb]
  · unfold parseNameComponents
    rw [if_pos hmem]
    have hrev : (a ++ '-' :: b).reverse = b.reverse ++ '-' :: a.reverse := by
      simp
    rw [hrev]
    rw [dropWhile_append_all ('-' :: a.reverse) hb2,
        takeWhile_append_stop a.reverse hb2 (by simp)]
    rw [List.dropWhile_cons_of_neg (by simp)]
    simp
  · unfold splitFirstHyphen
    rw [if_pos hmem]
    rw [takeWhile_append_stop b ha2 (by simp),
        dropWhile_append_all ('-' :: b) ha2]
    rw [List.dropWhile_cons_of_neg (by simp)]
    simp

/-- C7 witness: the theorem applied at the catalog's documented shape
`3.20-rm2`. -/
theorem parseVersion_single_hyphen_witness :
    parseVersion "3.20-rm2".toList = ("3.20".toList, "rm2".toList) ∧
    parseNameComponents "3.20-rm2".toList = ("3.20".toList, "rm2".toList) ∧
    splitFirstHyphen "3.20-rm2".toList = ("3.20".toList, "rm2".toList) := by
  have h := parseVersion_eq_parseNameComponents_single_hyphen
    "3.20".toList "rm2".toList (by decide) (by decide)
  simpa using h

/-- C7 counterexample: on `a-b-c` the three parsers pairwise disagree —
`ParseVersion` gives `(a, b)`, `parseNameComponents` gives `(a-b, c)`,
and the spec's split-on-first-hyphen gives `(a, b-c)` — so the two name
parsers are not equal as functions and neither implements the
split-on-first-hyphen rule. -/
theorem parseVersion_ne_parseNameComponents :
    parseVersion "a-b-c".toList = ("a".toList, "b".toList) ∧
    parseNameComponents "a-b-c".toList = ("a-b".toList, "c".toList) ∧
    splitFirstHyphen "a-b-c".toList = ("a".toList, "b-c".toList) ∧
    parseVersion "a-b-c".toList ≠ parseNameComponents "a-b-c".toList ∧
    parseVersion "a-b-c".toList ≠ splitFirstHyphen "a-b-c".toList ∧
    parseNameComponents "a-b-c".toList ≠ splitFirstHyphen "a-b-c".toList := by
  decide

/-! ## C9 — job cleanup -/

/-- C9 (amended): the background janitor `cleanupOldJobs` removes a job
exactly when its `completedAt` is set, lies more than five minutes before
`now`, and the job has no active subscribers at the moment of decision;
the explicit `Cleanup(id)` method, by contrast, removes its job
unconditionally (see the counterexample). -/
theorem cleanupOldJobs_removes_iff (now : ℤ) (st : StoreState)
    (id : GoStr) (job : Job) (hn : (st.jobs.map Prod.fst).Nodup)
    (h : findA id st.jobs = some job) :
    findA id (cleanupOldJobs now st).jobs =
      (if janitorRemoves now st (id, job) = true then none else some job) := by
  unfold cleanupOldJobs
  have := findA_filter_keep (fun e => ! janitorRemoves now st e) hn h
  dsimp only at this
  rw [this]
  by_cases hq : janitorRemoves now st (id, job) = true <;> simp [hq]

/-- C9 witness: a completed job, stale past the TTL with no watchers, is
removed by the janitor; the theorem applied at that store. -/
theorem cleanupOldJobs_removes_iff_witness :
    findA "j".toList
        (cleanupOldJobs 400000000000
          ⟨[("j".toList, ⟨"success".toList, [], 100, some 0⟩)], []⟩).jobs
      = none := by
  have h := cleanupOldJobs_removes_iff 400000000000
    ⟨[("j".toList, ⟨"success".toList, [], 100, some 0⟩)], []⟩
    "j".toList ⟨"success".toList, [], 100, some 0⟩ (by decide) (by decide)
  rw [h]
  rw [if_pos (by decide)]

/-- C9 counterexample: `Cleanup(id)` removes a job that completed this
very instant and still has one active subscriber — a removal the claim
says never happens — while the janitor, run at the same instant, keeps
it. -/
theorem cleanupJob_removes_unconditionally :
    (let st : StoreState :=
      ⟨[("j".toList, ⟨"success".toList, [], 100, some 0⟩)],
        [("j".toList, 1)]⟩
     findA "j".toList (cleanupJob st "j".toList).jobs = none ∧
       (findA "j".toList st.watchers).getD 0 = 1 ∧
       findA "j".toList (cleanupOldJobs 0 st).jobs =
         some ⟨"success".toList, [], 100, some 0⟩) := by
  decide

/-! ## C10 — the batch validator's top-level error is always nil -/

theorem vmq_foldl_untouched (validate : GoStr → VwdReturn) :
    ∀ (paths : List GoStr) (acc : BatchTreeValidationResult) (p : GoStr),
      p ∉ paths →
      findA p (paths.foldl (vmqStep validate) acc).results =
          findA p acc.results ∧
        findA p (paths.foldl (vmqStep validate) acc).errors =
          findA p acc.errors := by
  intro paths
  induction paths with
  | nil => exact fun acc p _ => ⟨rfl, rfl⟩
  | cons x rest ih =>
    intro acc p hp
    have hpx : p ≠ x := fun h => hp (h ▸ List.mem_cons_self x rest)
    have hprest : p ∉ rest := fun h => hp (List.mem_cons_of_mem x h)
    rw [List.foldl_cons]
    refine ⟨?_, ?_⟩
    · rw [(ih _ p hprest).1]
      exact findA_mapSet_ne _ _ hpx
    · rw [(ih _ p hprest).2]
      unfold vmqStep
      dsimp only
      cases h2 : (validate x).err with
      | none => rfl
      | some e => exact findA_mapSet_ne _ _ hpx

theorem vmq_foldl_mem (validate : GoStr → VwdReturn) :
    ∀ (paths : List GoStr) (acc : BatchTreeValidationResult) (p : GoStr),
      p ∈ paths →
      findA p (paths.foldl (vmqStep validate) acc).results =
          some (flattenDependencyResults ((validate p).results.getD [])
            (validate p).err) ∧
        (∀ e, (validate p).err = some e →
          findA p (paths.foldl (vmqStep validate) acc).errors = some e) := by
  intro paths
  induction paths with
  | nil => intro acc p hp; exact absurd hp (List.not_mem_nil p)
  | cons x rest ih =>
    intro acc p hp
    by_cases hrest : p ∈ rest
    · rw [List.foldl_cons]
      exact ih _ p hrest
    · have hpx : p = x := by
        rcases List.mem_cons.mp hp with h | h
        · exact h
        · exact absurd h hrest
      subst hpx
      rw [List.foldl_cons]
      have hu := vmq_foldl_untouched validate rest (vmqStep validate acc p) p hrest
      refine ⟨?_, ?_⟩
      · rw [hu.1]
        unfold vmqStep
        dsimp only
        exact findA_mapSet_self _ _ _
      · intro e he
        rw [hu.2]
        unfold vmqStep
        dsimp only
        rw [he]
        exact findA_mapSet_self _ _ _

/-- C10: `ValidateMultipleQMDsWithCLI` always returns a nil top-level
error, and its results map carries a `TreeValidationResult` (the
flattened per-file outcome) for every input path, with any per-file
validation failure recorded in the errors map for that path — so a
caller branch handling a non-nil returned error is unreachable. -/
theorem validateMultipleQMDs_ok (qmdPaths : List GoStr)
    (validate : GoStr → VwdReturn) :
    (validateMultipleQMDsWithCLI qmdPaths validate).2 = none ∧
    ∀ p ∈ qmdPaths,
      findA p (validateMultipleQMDsWithCLI qmdPaths validate).1.results =
        some (flattenDependencyResults ((validate p).results.getD [])
          (validate p).err) ∧
      (∀ e, (validate p).err = some e →
        findA p (validateMultipleQMDsWithCLI qmdPaths validate).1.errors =
          some e) :=
  ⟨rfl, fun p hp => vmq_foldl_mem validate qmdPaths ⟨[], []⟩ p hp⟩

/-- C10 witness: the theorem applied to one path whose validation fails;
the top-level error is still nil, the path keeps a flattened result, and
its failure sits in the errors map. -/
theorem validateMultipleQMDs_ok_witness :
    (validateMultipleQMDsWithCLI ["a.qmd".toList]
        (fun _ => ⟨none, some "boom".toList⟩)).2 = none ∧
    findA "a.qmd".toList
        (validateMultipleQMDsWithCLI ["a.qmd".toList]
          (fun _ => ⟨none, some "boom".toList⟩)).1.results =
      some (flattenDependencyResults [] (some "boom".toList)) ∧
    findA "a.qmd".toList
        (validateMultipleQMDsWithCLI ["a.qmd".toList]
          (fun _ => ⟨none, some "boom".toList⟩)).1.errors =
      some "boom".toList := by
  have h := validateMultipleQMDs_ok ["a.qmd".toList]
    (fun _ => ⟨none, some "boom".toList⟩)
  exact ⟨h.1, (h.2 _ (List.mem_singleton.mpr rfl)).1,
    (h.2 _ (List.mem_singleton.mpr rfl)).2 _ rfl⟩

/-! ## C4 — Phase A strictly precedes Phase B; Phase-A hash errors skip
Phase B -/

/-- C4: the adapter's invocation trace is always a prefix of
`[check-compatibility, apply-diffs]` — so within a cell Phase A strictly
precedes Phase B — and whenever Phase A reports hash errors, Phase B is
never invoked and the adapter returns early with exactly the Phase-A
reconciliation (`reconcileHashErrors`) and a nil error. -/
theorem validateWithDependencies_phases (w : CellWorld) :
    ((validateWithDependencies w).2 = [] ∨
      (validateWithDependencies w).2 = [PhaseCall.checkCompat] ∨
      (validateWithDependencies w).2 =
        [PhaseCall.checkCompat, PhaseCall.applyDiffs]) ∧
    (∀ depInfo compatResult,
      w.dep = Except.ok depInfo → w.compat = Except.ok compatResult →
      compatResult.hasErrors = true →
      (validateWithDependencies w).2 = [PhaseCall.checkCompat] ∧
      (validateWithDependencies w).1 =
        ⟨some (reconcileHashErrors depInfo compatResult), none⟩) := by
  constructor
  · unfold validateWithDependencies
    cases w.dep with
    | error e => simp
    | ok depInfo =>
      cases w.compat with
      | error e => simp
      | ok compatResult =>
        by_cases h : compatResult.hasErrors = true
        · simp [h]
        · cases w.outputDir with
          | error e => simp [h]
          | ok u =>
            by_cases h2 : w.applyErr = true ∧ w.applyParsed.hadPanic = true
            · simp [h, h2]
            · simp [h, h2]
  · intro depInfo compatResult hdep hcompat herr
    unfold validateWithDependencies
    rw [hdep, hcompat]
    simp [herr]

/-- C4 witness: the theorem applied to a cell whose Phase A reports one
missing hash; only `check-compatibility` runs and the returned map is
the Phase-A reconciliation. -/
theorem vwd_phases_witness :
    (validateWithDependencies
        ⟨Except.ok ⟨"r.qmd".toList, []⟩,
          Except.ok ⟨true, 1, [("r.qmd".toList, [5])]⟩,
          Except.ok (), [], ⟨[], [], [], [], false, [], []⟩, false⟩).2 =
      [PhaseCall.checkCompat] ∧
    (validateWithDependencies
        ⟨Except.ok ⟨"r.qmd".toList, []⟩,
          Except.ok ⟨true, 1, [("r.qmd".toList, [5])]⟩,
          Except.ok (), [], ⟨[], [], [], [], false, [], []⟩, false⟩).1 =
      ⟨some (reconcileHashErrors ⟨"r.qmd".toList, []⟩
          ⟨true, 1, [("r.qmd".toList, [5])]⟩), none⟩ :=
  (validateWithDependencies_phases _).2 _ _ rfl rfl rfl

/-! ## C6 — the per-cell progress values -/

theorem svcStep_ok_shape {env : ServiceEnv}
    {filenames qmdContents : List GoStr} {total : ℕ} {st : SvcState}
    {ht : Hashtab} {st2 : SvcState}
    (h : svcStep env filenames qmdContents total st ht = Except.ok st2) :
    st2.completed = st.completed + 1 ∧
    st2.pushes = st.pushes ++
      (if env.hasJob then [progressPushed (st.completed + 1) total]
       else []) := by
  unfold svcStep at h
  cases hg : getTreeByName env ht.name with
  | none =>
    simp only [hg] at h
    injection h with h
    subst h
    exact ⟨rfl, rfl⟩
  | some tree =>
    simp only [hg] at h
    cases hb : env.runBatch ht tree with
    | error e =>
      simp only [hb] at h
      exact Except.noConfusion h
    | ok staged =>
      simp only [hb] at h
      injection h with h
      subst h
      exact ⟨rfl, rfl⟩

theorem svcLoop_pushes (env : ServiceEnv)
    (filenames qmdContents : List GoStr) (total : ℕ) :
    ∀ (hts : List Hashtab) (st st2 : SvcState),
      svcLoop env filenames qmdContents total hts st = Except.ok st2 →
      st2.completed = st.completed + hts.length ∧
      (env.hasJob = true →
        st2.pushes = st.pushes ++
          (List.range hts.length).map
            (fun k => progressPushed (st.completed + k + 1) total)) := by
  intro hts
  induction hts with
  | nil =>
    intro st st2 h
    injection h with h
    subst h
    simp
  | cons ht rest ih =>
    intro st st2 h
    unfold svcLoop at h
    cases hstep : svcStep env filenames qmdContents total st ht with
    | error e =>
      simp only [hstep] at h
      exact Except.noConfusion h
    | ok st1 =>
      simp only [hstep] at h
      obtain ⟨hs1, hs2⟩ := svcStep_ok_shape hstep
      obtain ⟨hr1, hr2⟩ := ih st1 st2 h
      constructor
      · rw [List.length_cons]
        omega
      · intro hj
        rw [hr2 hj, hs2, hs1, hj, if_pos rfl]
        rw [List.length_cons, List.range_succ_eq_map, List.map_cons,
          List.map_map]
        rw [List.append_assoc, List.singleton_append]
        refine congrArg (fun l => st.pushes ++ l) ?_
        rw [show st.completed + 0 + 1 = st.completed + 1 by omega]
        refine congrArg₂ List.cons rfl ?_
        apply List.map_congr_left
        intro k _
        simp only [Function.comp_apply]
        congr 1
        omega

/-- C6 (amended): with a job store attached, the progress values pushed
over a successful run are exactly `10`, then — after the `c`-th
completed hashtable out of `t` —
`10 + int(float64(c)/float64(t)*90)` with IEEE-754 `float64`
rounding at each step and a final truncation toward zero (it neither
rounds, as the spec claims, nor equals the exact `10 + ⌊90·c/t⌋`),
and finally `100`. -/
theorem validateAgainstAllTrees_pushes (env : ServiceEnv)
    (qmdContents filenames : List GoStr) (hashtables : List Hashtab)
    (st : SvcState) (hjob : env.hasJob = true)
    (h : validateAgainstAllTrees env qmdContents filenames hashtables =
      Except.ok st) :
    st.pushes = 10 ::
      ((List.range hashtables.length).map
        (fun k => progressPushed (k + 1) hashtables.length) ++ [100]) := by
  unfold validateAgainstAllTrees at h
  by_cases h1 : qmdContents.length ≠ filenames.length
  · rw [if_pos h1] at h
    cases h
  · rw [if_neg h1] at h
    by_cases h2 : hashtables = []
    · rw [if_pos h2] at h
      cases h
    · rw [if_neg h2] at h
      dsimp only at h
      cases hloop : svcLoop env filenames qmdContents hashtables.length
          hashtables ⟨filenames.map (fun f => (f, [])), 0,
            if env.hasJob then [10] else []⟩ with
      | error e => rw [hloop] at h; cases h
      | ok st0 =>
        rw [hloop] at h
        injection h with h
        subst h
        have hp := (svcLoop_pushes env filenames qmdContents
          hashtables.length hashtables _ st0 hloop).2 hjob
        dsimp only at hp
        rw [hp, hjob]
        simp only [if_pos rfl, if_true, Nat.zero_add, List.cons_append,
          List.nil_append, List.append_assoc, List.singleton_append]

/-- C6 witness: a two-hashtable no-tree run; the theorem applied there
gives pushes `[10, 10 + int(45.0), 10 + int(90.0), 100] = [10, 55, 100,
100]` — both float products are exact here. -/
theorem validateAgainstAllTrees_pushes_witness :
    (validateAgainstAllTrees
        ⟨[], true, fun _ _ => Except.error []⟩ ["x".toList]
        ["f.qmd".toList]
        [⟨"h1".toList, [], [], []⟩, ⟨"h2".toList, [], [], []⟩]).toOption.map
      (fun st => st.pushes) = some [10, 55, 100, 100] := by
  have hok : (validateAgainstAllTrees
      ⟨[], true, fun _ _ => Except.error []⟩ ["x".toList]
      ["f.qmd".toList]
      [⟨"h1".toList, [], [], []⟩, ⟨"h2".toList, [], [], []⟩]).toOption.isSome
      = true := by decide
  cases hrun : validateAgainstAllTrees
      ⟨[], true, fun _ _ => Except.error []⟩ ["x".toList]
      ["f.qmd".toList]
      [⟨"h1".toList, [], [], []⟩, ⟨"h2".toList, [], [], []⟩] with
  | error e =>
    rw [hrun] at hok
    simp [Except.toOption] at hok
  | ok st =>
    have hpush := validateAgainstAllTrees_pushes _ _ _ _ _ rfl hrun
    have : (Except.ok (ε := GoStr) st).toOption.map (fun s2 => s2.pushes) =
        some st.pushes := rfl
    rw [this, hpush]
    decide

/-- C6 counterexample: with 16 hashtables, the first completed cell
pushes `10 + int(90·1/16) = 15` (the float values are exact here),
while the claimed formula `10 + round(90/16)` gives `16` — the code
truncates where the claim rounds. Moreover the float computation is not
the exact floor either: at `completed = 7` of `total = 10` the double
quotient falls just below `0.7`, the product truncates to `62`, and the
code pushes `72` where exact arithmetic gives `10 + ⌊630/10⌋ = 73`. -/
theorem progress_trunc_ne_round :
    (match validateAgainstAllTrees
        ⟨[], true, fun _ _ => Except.error []⟩ ["x".toList]
        ["f.qmd".toList]
        (List.replicate 16 ⟨"h".toList, [], [], []⟩) with
      | .ok st => st.pushes.getD 1 0
      | .error _ => 0) = 15 ∧
    progressClaimed 1 16 = 16 ∧ (15 : ℤ) ≠ 16 ∧
    progressPushed 7 10 = 72 ∧
    (10 + ((90 * 7) / 10 : ℕ) : ℤ) = 73 := by
  refine ⟨by decide, ?_, by decide, by decide, by decide⟩
  unfold progressClaimed
  norm_num [round_eq]

/-! ## C5 — the "tree unavailable" synthetic cell -/

/-- The one cell a successful iteration for hashtable `ht` contributes
to the `i`-th file: the synthetic "tree unavailable" cell when the
name lookup finds no tree, else the per-file cell from the batch result
(the `runBatch` error case never survives a successful run). -/
def cellOf (env : ServiceEnv) (qmdContents : List GoStr) (ht : Hashtab)
    (i : ℕ) : TreeComparisonResult :=
  match getTreeByName env ht.name with
  | none => unavailableCell ht
  | some tree =>
    match env.runBatch ht tree with
    | .error _ => unavailableCell ht
    | .ok staged => cellForFile qmdContents staged.1 staged.2 ht i

theorem cellOf_hashtable (env : ServiceEnv) (qmdContents : List GoStr)
    (ht : Hashtab) (i : ℕ) :
    (cellOf env qmdContents ht i).hashtable = ht.name := by
  unfold cellOf unavailableCell cellForFile
  dsimp only
  repeat' split
  all_goals rfl

theorem appendCell_pairs_untouched :
    ∀ (xs : List (GoStr × TreeComparisonResult))
      (r : List (GoStr × List TreeComparisonResult)) (f : GoStr),
      f ∉ xs.map Prod.fst →
      findA f (xs.foldl (fun r p => appendCell r p.1 p.2) r) = findA f r := by
  intro xs
  induction xs with
  | nil => intro r f _; rfl
  | cons p rest ih =>
    intro r f hf
    rw [List.map_cons] at hf
    have hp : f ≠ p.1 := fun h => hf (h ▸ List.mem_cons_self _ _)
    have hrest : f ∉ rest.map Prod.fst :=
      fun h => hf (List.mem_cons_of_mem _ h)
    rw [List.foldl_cons, ih _ f hrest]
    exact findA_mapSet_ne _ _ hp

theorem appendCell_pairs_mem :
    ∀ (xs : List (GoStr × TreeComparisonResult))
      (r : List (GoStr × List TreeComparisonResult)) (f : GoStr)
      (c : TreeComparisonResult),
      (xs.map Prod.fst).Nodup → (f, c) ∈ xs →
      findA f (xs.foldl (fun r p => appendCell r p.1 p.2) r) =
        some ((findA f r).getD [] ++ [c]) := by
  intro xs
  induction xs with
  | nil => intro r f c _ hmem; exact absurd hmem (List.not_mem_nil _)
  | cons p rest ih =>
    intro r f c hnd hmem
    obtain ⟨pf, pc⟩ := p
    rw [List.map_cons, List.nodup_cons] at hnd
    by_cases hp : f = pf
    · have hc : c = pc := by
        rcases List.mem_cons.mp hmem with h | h
        · exact congrArg Prod.snd h
        · exact absurd (hp ▸ List.mem_map.mpr ⟨(f, c), h, rfl⟩) hnd.1
      rw [List.foldl_cons,
        appendCell_pairs_untouched rest _ f (hp ▸ hnd.1), hc, hp]
      unfold appendCell
      exact findA_mapSet_self _ _ _
    · have hmem2 : (f, c) ∈ rest := by
        rcases List.mem_cons.mp hmem with h | h
        · exact absurd (congrArg Prod.fst h) hp
        · exact h
      rw [List.foldl_cons]
      rw [ih _ f c hnd.2 hmem2]
      unfold appendCell
      rw [findA_mapSet_ne _ _ hp]

theorem svcStep_results {env : ServiceEnv}
    {filenames qmdContents : List GoStr} {total : ℕ} {st : SvcState}
    {ht : Hashtab} {st2 : SvcState}
    (h : svcStep env filenames qmdContents total st ht = Except.ok st2)
    (hnd : filenames.Nodup) (i : ℕ) (hi : i < filenames.length) :
    findA (filenames.get ⟨i, hi⟩) st2.results =
      some ((findA (filenames.get ⟨i, hi⟩) st.results).getD [] ++
        [cellOf env qmdContents ht i]) := by
  have hmapfst : (filenames.map
      (fun f => (f, unavailableCell ht))).map Prod.fst = filenames := by
    rw [List.map_map]
    exact List.map_id'' (fun x => rfl) filenames
  unfold svcStep at h
  unfold cellOf
  cases hg : getTreeByName env ht.name with
  | none =>
    simp only [hg] at h
    injection h with h
    subst h
    dsimp only
    rw [← List.foldl_map (fun f => (f, unavailableCell ht))
      (fun r p => appendCell r p.1 p.2)]
    exact appendCell_pairs_mem _ _ _ _ (by rw [hmapfst]; exact hnd)
      (List.mem_map.mpr ⟨_, List.get_mem filenames i hi, rfl⟩)
  | some tree =>
    simp only [hg] at h
    cases hb : env.runBatch ht tree with
    | error e =>
      simp only [hb] at h
      exact Except.noConfusion h
    | ok staged =>
      simp only [hb] at h
      injection h with h
      subst h
      simp only [hb]
      have hmapfst2 : (filenames.enum.map
          (fun e => (e.2, cellForFile qmdContents staged.1 staged.2 ht e.1))).map
            Prod.fst = filenames := by
        rw [List.map_map]
        exact List.enum_map_snd filenames
      rw [← List.foldl_map
        (fun e : ℕ × GoStr =>
          (e.2, cellForFile qmdContents staged.1 staged.2 ht e.1))
        (fun r p => appendCell r p.1 p.2)]
      refine appendCell_pairs_mem _ _ _ _ (by rw [hmapfst2]; exact hnd) ?_
      have henum : (i, filenames.get ⟨i, hi⟩) ∈ filenames.enum := by
        apply List.mem_enum_iff_getElem?.mpr
        simp only
        rw [List.getElem?_eq_getElem hi]
        rfl
      exact List.mem_map.mpr ⟨(i, filenames.get ⟨i, hi⟩), henum, rfl⟩

theorem svcLoop_results (env : ServiceEnv)
    (filenames qmdContents : List GoStr) (total : ℕ)
    (hnd : filenames.Nodup) (i : ℕ) (hi : i < filenames.length) :
    ∀ (hts : List Hashtab) (st st2 : SvcState)
      (L : List TreeComparisonResult),
      svcLoop env filenames qmdContents total hts st = Except.ok st2 →
      findA (filenames.get ⟨i, hi⟩) st.results = some L →
      findA (filenames.get ⟨i, hi⟩) st2.results =
        some (L ++ hts.map (fun ht => cellOf env qmdContents ht i)) := by
  intro hts
  induction hts with
  | nil =>
    intro st st2 L h hL
    injection h with h
    subst h
    rw [hL]
    simp
  | cons ht rest ih =>
    intro st st2 L h hL
    unfold svcLoop at h
    cases hstep : svcStep env filenames qmdContents total st ht with
    | error e =>
      simp only [hstep] at h
      exact Except.noConfusion h
    | ok st1 =>
      simp only [hstep] at h
      have h1 := svcStep_results hstep hnd i hi
      rw [hL] at h1
      have := ih st1 st2 (L ++ [cellOf env qmdContents ht i]) h h1
      rw [this, List.map_cons, List.append_assoc, List.singleton_append]

theorem findA_init_results (filenames : List GoStr) (f : GoStr)
    (hf : f ∈ filenames) :
    findA f (filenames.map (fun g => (g, ([] : List TreeComparisonResult))))
      = some [] := by
  induction filenames with
  | nil => exact absurd hf (List.not_mem_nil f)
  | cons g rest ih =>
    by_cases hg : g = f
    · subst hg
      simp [findA]
    · rcases List.mem_cons.mp hf with h | h
      · exact absurd h.symm hg
      · rw [List.map_cons, findA_cons, if_neg hg]
        exact ih h

theorem filter_cellOf_name (env : ServiceEnv) (qmdContents : List GoStr)
    (ht : Hashtab) (i : ℕ) :
    ∀ (hts : List Hashtab), (hts.map Hashtab.name).Nodup → ht ∈ hts →
      getTreeByName env ht.name = none →
      (hts.map (fun h2 => cellOf env qmdContents h2 i)).filter
        (fun c => c.hashtable = ht.name) = [unavailableCell ht] := by
  intro hts
  induction hts with
  | nil => intro _ hmem _; exact absurd hmem (List.not_mem_nil ht)
  | cons h2 rest ih =>
    intro hnd hmem hnone
    rw [List.map_cons, List.nodup_cons] at hnd
    by_cases hh : h2 = ht
    · subst hh
      have hrest : (rest.map (fun h3 => cellOf env qmdContents h3 i)).filter
          (fun c => c.hashtable = h2.name) = [] := by
        rw [List.filter_eq_nil_iff]
        intro c hc
        obtain ⟨h3, hh3, rfl⟩ := List.mem_map.mp hc
        rw [cellOf_hashtable]
        simp only [decide_eq_true_eq]
        intro heq
        exact hnd.1 (List.mem_map.mpr ⟨h3, hh3, heq⟩)
      rw [List.map_cons, List.filter_cons,
        if_pos (by rw [cellOf_hashtable]; simp), hrest]
      unfold cellOf
      rw [hnone]
    · have hmem2 : ht ∈ rest := by
        rcases List.mem_cons.mp hmem with h | h
        · exact absurd h.symm hh
        · exact h
      have hname : ¬ ((cellOf env qmdContents h2 i).hashtable = ht.name) := by
        rw [cellOf_hashtable]
        intro heq
        exact hnd.1 (List.mem_map.mpr ⟨ht, hmem2, heq.symm⟩)
      rw [List.map_cons, List.filter_cons, if_neg (by simpa using hname)]
      exact ih hnd.2 hmem2 hnone

/-- C5 (amended): in `ValidateAgainstAllTrees`, tree matching is a
lookup of the hashtable's *name* in the tree catalog. For every
hashtable whose name finds no tree, each root patch's row in a
successful run carries exactly one cell attributed to that hashtable:
the synthetic cell with `treeValidationUsed = false`,
`compatible = true`, `validationMode = "hash"`, and
`errorDetail = "tree unavailable, using legacy mode"` — the cell is not
omitted. (Matching is not by `(osVersion, device)`, and the
worker-based handler path omits such cells entirely: see the
counterexample and RESULTS.) -/
theorem validateAgainstAllTrees_treeUnavailable (env : ServiceEnv)
    (qmdContents filenames : List GoStr) (hashtables : List Hashtab)
    (st : SvcState) (hnd : filenames.Nodup)
    (hnames : (hashtables.map Hashtab.name).Nodup)
    (hrun : validateAgainstAllTrees env qmdContents filenames hashtables =
      Except.ok st)
    (ht : Hashtab) (hmem : ht ∈ hashtables)
    (hnone : getTreeByName env ht.name = none)
    (i : ℕ) (hi : i < filenames.length) :
    ((findA (filenames.get ⟨i, hi⟩) st.results).getD []).filter
        (fun c => c.hashtable = ht.name) = [unavailableCell ht] ∧
      (unavailableCell ht).treeValidationUsed = false ∧
      (unavailableCell ht).compatible = true ∧
      (unavailableCell ht).validationMode = "hash".toList ∧
      (unavailableCell ht).errorDetail =
        "tree unavailable, using legacy mode".toList := by
  unfold validateAgainstAllTrees at hrun
  by_cases h1 : qmdContents.length ≠ filenames.length
  · rw [if_pos h1] at hrun
    cases hrun
  · rw [if_neg h1] at hrun
    by_cases h2 : hashtables = []
    · rw [if_pos h2] at hrun
      cases hrun
    · rw [if_neg h2] at hrun
      dsimp only at hrun
      cases hloop : svcLoop env filenames qmdContents hashtables.length
          hashtables ⟨filenames.map (fun f => (f, [])), 0,
            if env.hasJob then [10] else []⟩ with
      | error e => rw [hloop] at hrun; cases hrun
      | ok st0 =>
        rw [hloop] at hrun
        injection hrun with hrun
        subst hrun
        have hinit := findA_init_results filenames
          (filenames.get ⟨i, hi⟩) (List.get_mem filenames i hi)
        have hres := svcLoop_results env filenames qmdContents
          hashtables.length hnd i hi hashtables _ st0 [] hloop hinit
        dsimp only
        rw [hres]
        simp only [Option.getD_some, List.nil_append]
        exact ⟨filter_cellOf_name env qmdContents ht i hashtables
          hnames hmem hnone, rfl, rfl, rfl, rfl⟩

/-- C5 witness: the theorem applied to a one-hashtable catalog with no
trees at all; the single row is exactly the synthetic cell. -/
theorem validateAgainstAllTrees_treeUnavailable_witness :
    ((findA "f.qmd".toList
        (match validateAgainstAllTrees ⟨[], true, fun _ _ => Except.error []⟩
            ["x".toList] ["f.qmd".toList] [⟨"h1".toList, [], [], []⟩] with
          | .ok st => st.results
          | .error _ => [])).getD []).filter
      (fun c => c.hashtable = "h1".toList) =
      [unavailableCell ⟨"h1".toList, [], [], []⟩] := by
  cases hrun : validateAgainstAllTrees ⟨[], true, fun _ _ => Except.error []⟩
      ["x".toList] ["f.qmd".toList] [⟨"h1".toList, [], [], []⟩] with
  | error e =>
    have hok : (validateAgainstAllTrees
        ⟨[], true, fun _ _ => Except.error []⟩
        ["x".toList] ["f.qmd".toList]
        [⟨"h1".toList, [], [], []⟩]).toOption.isSome = true := by decide
    rw [hrun] at hok
    simp [Except.toOption] at hok
  | ok st =>
    have h := validateAgainstAllTrees_treeUnavailable
      ⟨[], true, fun _ _ => Except.error []⟩ ["x".toList] ["f.qmd".toList]
      [⟨"h1".toList, [], [], []⟩] st (by decide) (by decide) hrun
      ⟨"h1".toList, [], [], []⟩ (by decide) (by decide) 0 (by decide)
    exact h.1

/-- C5 counterexample: a hashtable whose `(osVersion, device)` — here
`("9.9", "rm2")` — matches no tree in the catalog, but whose *name*
matches a tree, undergoes full tree validation: the emitted cell has
`treeValidationUsed = true` and `validationMode = "tree"`, not the
claimed synthetic hash-mode cell. Matching is by name, not by
`(osVersion, device)`. -/
theorem treeUnavailable_matching_cex :
    (let tree : Tree :=
      ⟨"3.20-rm2".toList, "/trees/3.20-rm2".toList, "3.20".toList,
        "rm2".toList, 5⟩
     let env : ServiceEnv :=
      ⟨[tree], true,
        fun _ _ => Except.ok ([("/t/f.qmd".toList)],
          ⟨[(("/t/f.qmd".toList), ⟨0, 0, 0, [], false, [], []⟩)], []⟩)⟩
     let ht : Hashtab :=
      ⟨"3.20-rm2".toList, "/h".toList, "9.9".toList, "rm2".toList⟩
     env.trees.all (fun t =>
        !(t.osVersion = ht.osVersion ∧ t.device = ht.device : Bool)) = true ∧
     (match validateAgainstAllTrees env ["x".toList] ["f.qmd".toList]
          [ht] with
        | .ok st => ((findA "f.qmd".toList st.results).getD []).map
            (fun c => (c.treeValidationUsed, c.validationMode))
        | .error _ => []) = [(true, "tree".toList)]) := by
  decide

/-! ## C1 — compatible ⇔ validated -/

/-- The `ValidationResult` invariant of the spec: `compatible` exactly
at `validated`, and `not_attempted` is always incompatible. -/
def InvVR (v : ValidationResult) : Prop :=
  (v.compatible = true ↔ v.status = FileStatus.validated) ∧
  (v.status = FileStatus.notAttempted → v.compatible = false)

/-- The invariant the attachment chain maintains: status untouched, and
`compatible` flipped exactly when an error list became non-empty. -/
def WAttach (v : ValidationResult) : Prop :=
  v.status = FileStatus.validated ∧
  (v.compatible = false ↔ (v.hashErrors ≠ [] ∨ v.processErrors ≠ []))

theorem findSuffixHash_mem {m : List (GoStr × List HashError)}
    {probe : GoStr} {hs : List HashError}
    (h : findSuffixHash m probe = some hs) : ∃ k, (k, hs) ∈ m := by
  induction m with
  | nil => simp [findSuffixHash] at h
  | cons e rest ih =>
    obtain ⟨k, v⟩ := e
    unfold findSuffixHash at h
    by_cases hp : probe.isSuffixOf k
    · rw [if_pos hp] at h
      injection h with h
      exact ⟨k, by rw [h]; exact List.mem_cons_self _ _⟩
    · rw [if_neg hp] at h
      obtain ⟨k2, hk2⟩ := ih h
      exact ⟨k2, List.mem_cons_of_mem _ hk2⟩

theorem WAttach_depHashExact {p : ParsedOutput}
    (wf : WellFormedParsed p) (f : GoStr) {r : ValidationResult}
    (hw : WAttach r) : WAttach (depHashExact p f r) := by
  unfold depHashExact
  cases h : findA f p.hashErrors with
  | none => exact hw
  | some hs =>
    have hne : hs ≠ [] := wf.1 _ (findA_mem h)
    exact ⟨hw.1, by simp [hne]⟩

theorem WAttach_depHashResolved {p : ParsedOutput}
    (wf : WellFormedParsed p) (res : GoStr) {r : ValidationResult}
    (hw : WAttach r) : WAttach (depHashResolved p res r) := by
  unfold depHashResolved
  cases h : findA res p.hashErrors with
  | none => exact hw
  | some hs =>
    have hne : hs ≠ [] := wf.1 _ (findA_mem h)
    refine ⟨hw.1, by simp [List.append_ne_nil_of_right_ne_nil _ hne]⟩

theorem WAttach_depHashSuffix {p : ParsedOutput}
    (wf : WellFormedParsed p) (f : GoStr) {r : ValidationResult}
    (hw : WAttach r) : WAttach (depHashSuffix p f r) := by
  unfold depHashSuffix
  by_cases he : r.hashErrors = []
  · rw [if_pos he]
    cases h : findSuffixHash p.hashErrors f with
    | none => exact hw
    | some hs =>
      obtain ⟨k, hk⟩ := findSuffixHash_mem h
      have hne : hs ≠ [] := wf.1 _ hk
      refine ⟨hw.1, by simp [List.append_ne_nil_of_right_ne_nil _ hne]⟩
  · rw [if_neg he]
    exact hw

theorem WAttach_depProcExact {p : ParsedOutput}
    (wf : WellFormedParsed p) (f : GoStr) {r : ValidationResult}
    (hw : WAttach r) : WAttach (depProcExact p f r) := by
  unfold depProcExact
  cases h : findA f p.processErrors with
  | none => exact hw
  | some ps =>
    have hne : ps ≠ [] := wf.2 _ (findA_mem h)
    exact ⟨hw.1, by simp [hne]⟩

theorem WAttach_depProcResolved {p : ParsedOutput}
    (wf : WellFormedParsed p) (res : GoStr) {r : ValidationResult}
    (hw : WAttach r) : WAttach (depProcResolved p res r) := by
  unfold depProcResolved
  cases h : findA res p.processErrors with
  | none => exact hw
  | some ps =>
    have hne : ps ≠ [] := wf.2 _ (findA_mem h)
    refine ⟨hw.1, by simp [List.append_ne_nil_of_right_ne_nil _ hne]⟩

theorem WAttach_depAttach {p : ParsedOutput} (wf : WellFormedParsed p)
    (f res : GoStr) {r : ValidationResult} (hw : WAttach r) :
    WAttach (depAttach p f res r) :=
  WAttach_depProcResolved wf res
    (WAttach_depProcExact wf f
      (WAttach_depHashSuffix wf f
        (WAttach_depHashResolved wf res
          (WAttach_depHashExact wf f hw))))

theorem Inv_depOutcome {p : ParsedOutput} (wf : WellFormedParsed p)
    (f res : GoStr) (i : ℕ) : InvVR (depOutcome p f res i) := by
  unfold depOutcome
  dsimp only
  split
  · exact ⟨by simp, by simp⟩
  split
  · exact ⟨by simp, by simp⟩
  split
  · have hw : WAttach (depAttach p f res
        ⟨f, FileStatus.validated, true, [], [], (i : ℤ), []⟩) :=
      WAttach_depAttach wf f res ⟨rfl, by simp⟩
    split
    · next hne =>
      have hc : (depAttach p f res
          ⟨f, FileStatus.validated, true, [], [], (i : ℤ), []⟩).compatible
          = false := hw.2.mpr hne
      exact ⟨by simp [hc], by simp⟩
    · next hne =>
      have hc : ¬ (depAttach p f res
          ⟨f, FileStatus.validated, true, [], [], (i : ℤ), []⟩).compatible
          = false := fun h => hne (hw.2.mp h)
      have hc2 := eq_true_of_ne_false hc
      exact ⟨by simp [hc2, hw.1], by simp [hw.1]⟩
  · exact ⟨by simp, by simp⟩

theorem Inv_applyRootHashHit {r : ValidationResult}
    (hw : InvVR r) (o : Option (List HashError)) :
    InvVR (applyRootHashHit r o) := by
  cases o with
  | none => exact hw
  | some hs => exact ⟨by simp [applyRootHashHit], by simp [applyRootHashHit]⟩

theorem Inv_applyRootProcHit {r : ValidationResult}
    (hw : InvVR r) (o : Option (List GoStr)) :
    InvVR (applyRootProcHit r o) := by
  cases o with
  | none => exact hw
  | some ps => exact ⟨by simp [applyRootProcHit], by simp [applyRootProcHit]⟩

theorem Inv_attribRoot (d : DependencyInfo) (p : ParsedOutput) :
    InvVR (attribRoot d p) := by
  unfold attribRoot
  dsimp only
  split
  · exact ⟨by simp, by simp⟩
  · refine Inv_applyRootProcHit (Inv_applyRootProcHit ?_ _) _
    split
    · exact Inv_applyRootHashHit
        (Inv_applyRootHashHit
          (Inv_applyRootHashHit ⟨by simp, by simp⟩ _) _) _
    · exact Inv_applyRootHashHit
        (Inv_applyRootHashHit ⟨by simp, by simp⟩ _) _

theorem fold_mapSet_all {α β : Type} (P : α → Prop) (l : List β)
    (f : List (GoStr × α) → β → List (GoStr × α))
    (hstep : ∀ m b, (∀ e ∈ m, P e.2) → ∀ e ∈ f m b, P e.2) :
    ∀ (init : List (GoStr × α)), (∀ e ∈ init, P e.2) →
      ∀ e ∈ l.foldl f init, P e.2 := by
  induction l with
  | nil => intro init hinit; exact hinit
  | cons b rest ih =>
    intro init hinit
    rw [List.foldl_cons]
    exact ih (f init b) (hstep init b hinit)

theorem fold_state_mapSet_all {α β σ : Type} (P : α → Prop) (l : List β)
    (f : List (GoStr × α) × σ → β → List (GoStr × α) × σ)
    (hstep : ∀ st b, (∀ e ∈ st.1, P e.2) → ∀ e ∈ (f st b).1, P e.2) :
    ∀ (init : List (GoStr × α) × σ), (∀ e ∈ init.1, P e.2) →
      ∀ e ∈ (l.foldl f init).1, P e.2 := by
  induction l with
  | nil => intro init hinit; exact hinit
  | cons b rest ih =>
    intro init hinit
    rw [List.foldl_cons]
    exact ih (f init b) (hstep init b hinit)

theorem mapSet_all {α : Type} {P : α → Prop} {m : List (GoStr × α)}
    {k : GoStr} {v : α} (hm : ∀ e ∈ m, P e.2) (hv : P v) :
    ∀ e ∈ mapSet m k v, P e.2 := by
  intro e he
  rcases mem_mapSet he with h | h
  · rw [h]
    exact hv
  · exact hm e h

theorem Inv_rhRoot (rootBase : GoStr) (m : List (GoStr × List ℕ)) :
    ∀ {r : ValidationResult}, InvVR r → InvVR (rhRoot rootBase m r) := by
  induction m with
  | nil => intro r hr; exact hr
  | cons e rest ih =>
    intro r hr
    unfold rhRoot at ih ⊢
    rw [List.foldl_cons]
    by_cases hc : baseName e.1 = rootBase ∨ rootBase.isSuffixOf e.1
    · rw [if_pos hc]
      exact ih ⟨by simp, by simp⟩
    · rw [if_neg hc]
      exact ih hr

theorem Inv_panicResults (d : DependencyInfo) (p : ParsedOutput) :
    ∀ e ∈ panicResults d p, InvVR e.2 := by
  unfold panicResults
  refine fold_mapSet_all InvVR _ _ ?_ _ ?_
  · intro m b hm
    exact mapSet_all hm ⟨by simp, by simp⟩
  · exact mapSet_all (by intro e he; simp at he) ⟨by simp, by simp⟩

theorem Inv_depStep (d : DependencyInfo) {p : ParsedOutput}
    (wf : WellFormedParsed p) :
    ∀ (st : List (GoStr × ValidationResult) × ℤ) (e : ℕ × GoStr),
      (∀ e2 ∈ st.1, InvVR e2.2) → ∀ e2 ∈ (depStep d p st e).1, InvVR e2.2 := by
  intro st e hm
  unfold depStep
  dsimp only
  split
  · exact mapSet_all hm ⟨by simp, by simp⟩
  · exact mapSet_all hm (Inv_depOutcome wf _ _ _)

/-- C1: every `ValidationResult` produced by `ReconcileResults` (for
parser-produced outputs, whose error lists are never empty), by
`createErrorResults`, and by `reconcileHashErrors` satisfies the
invariant: `compatible` holds exactly when `status = validated`, and a
`not_attempted` entry is never compatible. -/
theorem reconcile_compatible_iff_validated :
    (∀ (d : DependencyInfo) (p : ParsedOutput), WellFormedParsed p →
      ∀ k v, findA k (reconcileResults d p) = some v → InvVR v) ∧
    (∀ (d : DependencyInfo) (msg : GoStr) k v,
      findA k (createErrorResults d msg) = some v → InvVR v) ∧
    (∀ (d : DependencyInfo) (c : CheckCompatibilityResult) k v,
      findA k (reconcileHashErrors d c) = some v → InvVR v) := by
  refine ⟨?_, ?_, ?_⟩
  · intro d p wf k v hfind
    have hmem := findA_mem hfind
    unfold reconcileResults at hmem
    split at hmem
    · exact Inv_panicResults d p _ hmem
    · refine fold_state_mapSet_all InvVR _ _ (Inv_depStep d wf) _ ?_ _ hmem
      exact mapSet_all (by intro e he; simp at he) (Inv_attribRoot d p)
  · intro d msg k v hfind
    have hmem := findA_mem hfind
    unfold createErrorResults at hmem
    refine fold_mapSet_all InvVR _ _ ?_ _ ?_ _ hmem
    · intro m b hm
      exact mapSet_all hm ⟨by simp, by simp⟩
    · exact mapSet_all (by intro e he; simp at he) ⟨by simp, by simp⟩
  · intro d c k v hfind
    have hmem := findA_mem hfind
    unfold reconcileHashErrors at hmem
    refine fold_mapSet_all InvVR _ _ ?_ _ ?_ _ hmem
    · intro m b hm
      dsimp only
      refine mapSet_all hm ?_
      cases h : rhFindDep b.2 c.hashErrors with
      | none => exact ⟨by simp, by simp⟩
      | some hs => exact ⟨by simp, by simp⟩
    · refine mapSet_all (by intro e he; simp at he) ?_
      exact Inv_rhRoot _ _ ⟨by simp, by simp⟩

/-- C1 witness: the theorem applied to a processed dependency carrying
one hash error under a suffix key — `compatible` is false exactly
because the status is `failed`, not `validated`. -/
theorem reconcile_compatible_iff_validated_witness :
    WellFormedParsed
        ⟨[("/abs/dep1.qmd".toList, [⟨12345, "err".toList⟩])], [],
          ["dep1.qmd".toList], [], false, [], []⟩ ∧
    findA "dep1.qmd".toList
        (reconcileResults ⟨"/tmp/root.qmd".toList, ["dep1.qmd".toList]⟩
          ⟨[("/abs/dep1.qmd".toList, [⟨12345, "err".toList⟩])], [],
            ["dep1.qmd".toList], [], false, [], []⟩) =
      some ⟨"dep1.qmd".toList, FileStatus.failed, false,
        [⟨12345, "err".toList⟩], [], 0, []⟩ ∧
    ((false = true) ↔ (FileStatus.failed = FileStatus.validated)) := by
  refine ⟨⟨by decide, by decide⟩, by decide, ?_⟩
  have h := (reconcile_compatible_iff_validated.1
    ⟨"/tmp/root.qmd".toList, ["dep1.qmd".toList]⟩
    ⟨[("/abs/dep1.qmd".toList, [⟨12345, "err".toList⟩])], [],
      ["dep1.qmd".toList], [], false, [], []⟩
    ⟨by decide, by decide⟩ "dep1.qmd".toList
    ⟨"dep1.qmd".toList, FileStatus.failed, false,
      [⟨12345, "err".toList⟩], [], 0, []⟩ (by decide)).1
  exact h

/-! ## C2 — error attribution key forms -/

theorem cleanPath_ne_nil (s : GoStr) : cleanPath s ≠ [] := by
  unfold cleanPath
  by_cases h : s = []
  · simp [h]
  · rw [if_neg h]
    dsimp only
    by_cases hr : s.head? = some '/'
    · simp [hr]
    · rw [if_neg hr]
      split <;> simp_all

theorem mapSetFold_untouched {α β : Type} (key : β → GoStr) (val : β → α) :
    ∀ (xs : List β) (init : List (GoStr × α)) (f : GoStr),
      f ∉ xs.map key →
      findA f (xs.foldl (fun m e => mapSet m (key e) (val e)) init) =
        findA f init := by
  intro xs
  induction xs with
  | nil => intro init f _; rfl
  | cons b rest ih =>
    intro init f hf
    rw [List.map_cons] at hf
    have hb : f ≠ key b := fun h => hf (h ▸ List.mem_cons_self _ _)
    have hrest : f ∉ rest.map key := fun h => hf (List.mem_cons_of_mem _ h)
    rw [List.foldl_cons, ih _ f hrest]
    exact findA_mapSet_ne _ _ hb

theorem mapSetFold_mem {α β : Type} (key : β → GoStr) (val : β → α) :
    ∀ (xs : List β) (init : List (GoStr × α)) (b : β),
      (xs.map key).Nodup → b ∈ xs →
      findA (key b) (xs.foldl (fun m e => mapSet m (key e) (val e)) init) =
        some (val b) := by
  intro xs
  induction xs with
  | nil => intro init b _ hmem; exact absurd hmem (List.not_mem_nil b)
  | cons b2 rest ih =>
    intro init b hnd hmem
    rw [List.map_cons, List.nodup_cons] at hnd
    by_cases hb : key b = key b2
    · have hbrest : b ∉ rest := by
        intro hmem2
        exact hnd.1 (hb ▸ List.mem_map.mpr ⟨b, hmem2, rfl⟩)
      have hbeq : val b = val b2 := by
        rcases List.mem_cons.mp hmem with h | h
        · rw [h]
        · exact absurd h hbrest
      rw [List.foldl_cons,
        mapSetFold_untouched key val rest _ (key b) (hb ▸ hnd.1), hbeq, hb]
      exact findA_mapSet_self _ _ _
    · have hmem2 : b ∈ rest := by
        rcases List.mem_cons.mp hmem with h | h
        · exact absurd (congrArg key h) hb
        · exact h
      rw [List.foldl_cons, ih _ b hnd.2 hmem2]

/-- With no failure file and no panic file, the dependency walk never
sets the failure point, so it is the plain per-file insertion of
`depOutcome`. -/
theorem depFold_eq (d : DependencyInfo) (p : ParsedOutput)
    (hff : p.failureFile = []) (hpf : p.panicFile = []) :
    ∀ (xs : List (ℕ × GoStr)) (st : List (GoStr × ValidationResult) × ℤ),
      st.2 = -1 → (∀ e ∈ xs, e.2 ≠ ([] : GoStr)) →
      (xs.foldl (depStep d p) st).1 =
        xs.foldl
          (fun m e => mapSet m e.2
            (depOutcome p e.2 (resolveLoadPath d.rootFile e.2) e.1))
          st.1 := by
  intro xs
  induction xs with
  | nil => intro st _ _; rfl
  | cons e rest ih =>
    intro st hfp hne
    have hene : e.2 ≠ [] := hne e (List.mem_cons_self _ _)
    have hrne : resolveLoadPath d.rootFile e.2 ≠ [] := cleanPath_ne_nil _
    have hnofail : ¬ ((p.failureFile = e.2 ∨
        p.failureFile = resolveLoadPath d.rootFile e.2) ∨
        (p.panicFile ≠ [] ∧ p.panicFile = baseName e.2)) := by
      rw [hff, hpf]
      push_neg
      exact ⟨⟨fun h => hene h.symm, fun h => hrne h.symm⟩,
        fun h => absurd rfl h⟩
    have hstep : depStep d p st e =
        (mapSet st.1 e.2
          (depOutcome p e.2 (resolveLoadPath d.rootFile e.2) e.1), st.2) := by
      unfold depStep
      rw [if_neg (by rw [hfp]; simp), if_neg hnofail]
    rw [List.foldl_cons, List.foldl_cons, hstep]
    exact ih _ hfp (fun e2 he2 => hne e2 (List.mem_cons_of_mem _ he2))

theorem attribRoot_failed_iff (d : DependencyInfo) (p : ParsedOutput)
    (hpf : p.panicFile = []) :
    ((attribRoot d p).status = FileStatus.failed ↔
      ((findA d.rootFile p.hashErrors).isSome ∨
        (findA (baseName d.rootFile) p.hashErrors).isSome ∨
        (findSuffixHash p.hashErrors (baseName d.rootFile)).isSome ∨
        (findA d.rootFile p.processErrors).isSome ∨
        (findA (baseName d.rootFile) p.processErrors).isSome)) := by
  unfold attribRoot
  dsimp only
  rw [if_neg (by simp [hpf])]
  unfold applyRootHashHit applyRootProcHit
  cases h1 : findA d.rootFile p.hashErrors <;>
    cases h2 : findA (baseName d.rootFile) p.hashErrors <;>
      cases h3 : findSuffixHash p.hashErrors (baseName d.rootFile) <;>
        cases h4 : findA d.rootFile p.processErrors <;>
          cases h5 : findA (baseName d.rootFile) p.processErrors <;>
            dsimp only <;> (repeat' split) <;>
              (first | (simp; done) | simp_all)

theorem depAttach_compat_iff (p : ParsedOutput) (f res : GoStr) (i : ℕ) :
    ((depAttach p f res
        ⟨f, FileStatus.validated, true, [], [], (i : ℤ), []⟩).compatible
        = false ↔
      ((findA f p.hashErrors).isSome ∨ (findA res p.hashErrors).isSome ∨
        (findSuffixHash p.hashErrors f).isSome ∨
        (findA f p.processErrors).isSome ∨
        (findA res p.processErrors).isSome)) := by
  unfold depAttach depHashExact depHashResolved depHashSuffix depProcExact
    depProcResolved
  cases h1 : findA f p.hashErrors <;>
    cases h2 : findA res p.hashErrors <;>
      cases h3 : findSuffixHash p.hashErrors f <;>
        cases h4 : findA f p.processErrors <;>
          cases h5 : findA res p.processErrors <;>
            dsimp only <;> (repeat' split) <;>
              (first | (simp; done) | simp_all)

theorem depOutcome_failed_iff {p : ParsedOutput} (wf : WellFormedParsed p)
    (hff : p.failureFile = []) (hpf : p.panicFile = [])
    {f : GoStr} (hf : f ≠ []) {res : GoStr} (hres : res ≠ []) (i : ℕ) :
    ((depOutcome p f res i).status = FileStatus.failed ↔
      (f ∈ p.processedFiles ∨ res ∈ p.processedFiles) ∧
        ((findA f p.hashErrors).isSome ∨ (findA res p.hashErrors).isSome ∨
          (findSuffixHash p.hashErrors f).isSome ∨
          (findA f p.processErrors).isSome ∨
          (findA res p.processErrors).isSome)) := by
  have hw : WAttach (depAttach p f res
      ⟨f, FileStatus.validated, true, [], [], (i : ℤ), []⟩) :=
    WAttach_depAttach wf f res ⟨rfl, by simp⟩
  have hcompat := depAttach_compat_iff p f res i
  unfold depOutcome
  dsimp only
  rw [if_neg (by
    rw [hff]
    push_neg
    exact ⟨fun h => hf h.symm, fun h => hres h.symm⟩)]
  rw [if_neg (by simp [hpf])]
  by_cases hproc : f ∈ p.processedFiles ∨ res ∈ p.processedFiles
  · rw [if_pos hproc]
    by_cases hne : (depAttach p f res
        ⟨f, FileStatus.validated, true, [], [], (i : ℤ), []⟩).hashErrors ≠ []
        ∨ (depAttach p f res
          ⟨f, FileStatus.validated, true, [], [], (i : ℤ), []⟩).processErrors
          ≠ []
    · rw [if_pos hne]
      exact iff_of_true rfl ⟨hproc, hcompat.mp (hw.2.mpr hne)⟩
    · rw [if_neg hne]
      rw [hw.1]
      simp only [hproc, true_and]
      constructor
      · intro h
        exact absurd h (by simp)
      · intro h
        exact absurd (hw.2.mp (hcompat.mpr h)) hne
  · rw [if_neg hproc]
    simp [hproc]

/-- C2 (amended): with no panic and no unreadable file in play, the
reconciler's attribution is: the root is demoted to `failed` exactly
when its hash errors hit under the exact path, the basename, or a
suffix-matching key, or its process errors hit under the exact path or
the basename — process errors are *not* probed under suffix-match; a
dependency that appears in `processedFiles` is demoted exactly when its
hash errors hit under the exact, resolved, or suffix-matching key, or
its process errors hit under the exact or resolved key — again with no
suffix-match for process errors. -/
theorem reconcile_attribution (d : DependencyInfo) (p : ParsedOutput)
    (wf : WellFormedParsed p) (hnp : p.hadPanic = false)
    (hff : p.failureFile = []) (hpf : p.panicFile = [])
    (hnd : d.expectedLoads.Nodup)
    (hroot : baseName d.rootFile ∉ d.expectedLoads)
    (hnonil : ([] : GoStr) ∉ d.expectedLoads) :
    (findA (baseName d.rootFile) (reconcileResults d p) =
        some (attribRoot d p) ∧
      ((attribRoot d p).status = FileStatus.failed ↔
        ((findA d.rootFile p.hashErrors).isSome ∨
          (findA (baseName d.rootFile) p.hashErrors).isSome ∨
          (findSuffixHash p.hashErrors (baseName d.rootFile)).isSome ∨
          (findA d.rootFile p.processErrors).isSome ∨
          (findA (baseName d.rootFile) p.processErrors).isSome))) ∧
    (∀ k (hk : k < d.expectedLoads.length),
      findA (d.expectedLoads.get ⟨k, hk⟩) (reconcileResults d p) =
          some (depOutcome p (d.expectedLoads.get ⟨k, hk⟩)
            (resolveLoadPath d.rootFile (d.expectedLoads.get ⟨k, hk⟩)) k) ∧
        ((depOutcome p (d.expectedLoads.get ⟨k, hk⟩)
            (resolveLoadPath d.rootFile (d.expectedLoads.get ⟨k, hk⟩))
            k).status = FileStatus.failed ↔
          (d.expectedLoads.get ⟨k, hk⟩ ∈ p.processedFiles ∨
              resolveLoadPath d.rootFile (d.expectedLoads.get ⟨k, hk⟩) ∈
                p.processedFiles) ∧
            ((findA (d.expectedLoads.get ⟨k, hk⟩) p.hashErrors).isSome ∨
              (findA (resolveLoadPath d.rootFile
                (d.expectedLoads.get ⟨k, hk⟩)) p.hashErrors).isSome ∨
              (findSuffixHash p.hashErrors
                (d.expectedLoads.get ⟨k, hk⟩)).isSome ∨
              (findA (d.expectedLoads.get ⟨k, hk⟩) p.processErrors).isSome ∨
              (findA (resolveLoadPath d.rootFile
                (d.expectedLoads.get ⟨k, hk⟩)) p.processErrors).isSome))) := by
  have hmain : reconcileResults d p =
      (d.expectedLoads.enum.foldl (depStep d p)
        (mapSet [] (baseName d.rootFile) (attribRoot d p), -1)).1 := by
    unfold reconcileResults
    rw [if_neg (by simp [hnp])]
  have hfold := depFold_eq d p hff hpf d.expectedLoads.enum
    (mapSet [] (baseName d.rootFile) (attribRoot d p), -1) rfl
    (by
      intro e he
      intro hnil
      exact hnonil (hnil ▸ List.getElem?_mem
        (List.mem_enum_iff_getElem?.mp he)))
  have henum_nodup : (d.expectedLoads.enum.map Prod.snd).Nodup := by
    rw [List.enum_map_snd]
    exact hnd
  refine ⟨⟨?_, attribRoot_failed_iff d p hpf⟩, ?_⟩
  · rw [hmain, hfold]
    rw [mapSetFold_untouched (fun e : ℕ × GoStr => e.2) _ _ _ _
      (by rw [List.enum_map_snd]; exact hroot)]
    exact findA_mapSet_self _ _ _
  · intro k hk
    have hget : d.expectedLoads.get ⟨k, hk⟩ ≠ [] := by
      intro hnil
      exact hnonil (hnil ▸ List.get_mem d.expectedLoads k hk)
    refine ⟨?_, depOutcome_failed_iff wf hff hpf hget
      (cleanPath_ne_nil _) k⟩
    rw [hmain, hfold]
    have hmem : ((k, d.expectedLoads.get ⟨k, hk⟩) : ℕ × GoStr) ∈
        d.expectedLoads.enum := by
      apply List.mem_enum_iff_getElem?.mpr
      simp only
      rw [List.getElem?_eq_getElem hk]
      rfl
    exact mapSetFold_mem (fun e : ℕ × GoStr => e.2)
      (fun e : ℕ × GoStr => depOutcome p e.2
        (resolveLoadPath d.rootFile e.2) e.1)
      d.expectedLoads.enum _ _ henum_nodup hmem

theorem reconcile_attribution_witness :
    findA (baseName "/tmp/root.qmd".toList)
        (reconcileResults ⟨"/tmp/root.qmd".toList, ["dep2.qmd".toList]⟩
          ⟨[], [("/tmp/root.qmd".toList, ["boom".toList])], [], [], false,
            [], []⟩) =
      some (attribRoot ⟨"/tmp/root.qmd".toList, ["dep2.qmd".toList]⟩
        ⟨[], [("/tmp/root.qmd".toList, ["boom".toList])], [], [], false,
          [], []⟩) ∧
    (attribRoot ⟨"/tmp/root.qmd".toList, ["dep2.qmd".toList]⟩
        ⟨[], [("/tmp/root.qmd".toList, ["boom".toList])], [], [], false,
          [], []⟩).status = FileStatus.failed := by
  have h := reconcile_attribution
    ⟨"/tmp/root.qmd".toList, ["dep2.qmd".toList]⟩
    ⟨[], [("/tmp/root.qmd".toList, ["boom".toList])], [], [], false, [], []⟩
    ⟨by decide, by decide⟩ rfl rfl rfl (by decide) (by decide) (by decide)
  exact ⟨h.1.1, h.1.2.mpr (by decide)⟩

/-- A process-error key that suffix-matches the root basename (but is
neither the exact path nor the basename) does *not* demote the root: the
entry stays `validated`/`compatible`. Process errors are probed only
under the exact path and the basename, with no suffix-match pass. -/
theorem procErrors_no_suffix_cex :
    List.isSuffixOf "root.qmd".toList "sub/root.qmd".toList = true ∧
    findA "root.qmd".toList
        (reconcileResults ⟨"/tmp/root.qmd".toList, []⟩
          ⟨[], [("sub/root.qmd".toList, ["boom".toList])], [], [], false,
            [], []⟩) =
      some ⟨"root.qmd".toList, FileStatus.validated, true, [], [], -1,
        []⟩ := by
  decide

/-! ## C8 — hash-position soundness -/

theorem take_len_succ (l1 : GoStr) (a : Char) (l2 : GoStr) :
    (l1 ++ a :: l2).take (l1.length + 1) = l1 ++ [a] := by
  induction l1 with
  | nil => rfl
  | cons x xs ih =>
    show x :: ((xs ++ a :: l2).take (xs.length + 1)) = x :: (xs ++ [a])
    rw [ih]

theorem isPrefixOf_head_ne {s : GoStr} {ch : Char} {rest : GoStr}
    (hs : s ≠ []) (hh : ∀ c0, s.head? = some c0 → c0 ≠ ch) :
    s.isPrefixOf (ch :: rest) = false := by
  cases s with
  | nil => exact absurd rfl hs
  | cons a as =>
    have ha : a ≠ ch := hh a rfl
    simp [List.isPrefixOf, ha]

theorem occursAt_append (pre tail s : GoStr) :
    occursAt (pre ++ tail) s pre.length = s.isPrefixOf tail := by
  unfold occursAt
  rw [List.drop_left]

theorem fhpAux_sound (c : GoStr) :
    ∀ (content pre : GoStr) (line col : ℕ)
      (active : List (GoStr × ℕ)),
      c = pre ++ content →
      line = lineAt c pre.length →
      col = colAt c pre.length →
      (∀ e ∈ active, e.1 = decimalChars e.2) →
      (∀ e ∈ active, ∀ i, i < pre.length → occursAt c e.1 i = false) →
      (active.map Prod.snd).Nodup →
      ((fhpAux content line col active).map
          (fun x => x.hash)).Nodup ∧
      ∀ x ∈ fhpAux content line col active,
        ∃ e, e ∈ active ∧ x.hash = e.2 ∧
          ∃ i, pre.length ≤ i ∧ i < c.length ∧
            occursAt c e.1 i = true ∧
            (∀ i2, i2 < i → occursAt c e.1 i2 = false) ∧
            x.line = lineAt c i ∧ x.column = colAt c i := by
  intro content
  induction content with
  | nil =>
    intro pre line col active _ _ _ _ _ _
    exact ⟨List.nodup_nil, fun x hx => absurd hx (List.not_mem_nil x)⟩
  | cons ch rest ih =>
    intro pre line col active hc hline hcol Hdec Hocc Hnd
    have hlen : pre.length < c.length := by
      rw [hc, List.length_append]
      simp
    by_cases hch : ch = '\n'
    · subst hch
      rw [fhpAux, if_pos rfl]
      have hc2 : c = (pre ++ ['\n']) ++ rest := by
        rw [hc, List.append_assoc]
        rfl
      have hlen2 : (pre ++ ['\n']).length = pre.length + 1 := by simp
      have hline2 : line + 1 = lineAt c (pre.length + 1) := by
        rw [hline]
        unfold lineAt
        rw [hc, take_len_succ, List.take_left, List.count_append]
        simp [List.count_cons]
        omega
      have hcol2 : (1 : ℕ) = colAt c (pre.length + 1) := by
        unfold colAt
        rw [hc, take_len_succ, List.reverse_append]
        simp
      have Hocc2 : ∀ e ∈ active, ∀ i, i < pre.length + 1 →
          occursAt c e.1 i = false := by
        intro e he i hi
        rcases Nat.lt_succ_iff_lt_or_eq.mp hi with h | h
        · exact Hocc e he i h
        · subst h
          rw [hc, occursAt_append]
          refine isPrefixOf_head_ne ?_ ?_
          · rw [Hdec e he]
            exact decimalChars_ne_nil e.2
          · intro c0 hc0
            rw [Hdec e he] at hc0
            exact decimalChars_head_ne_newline e.2 c0 hc0
      have hmain := ih (pre ++ ['\n']) (line + 1) 1 active hc2
        (by rw [hlen2, ← hline2]) (by rw [hlen2, ← hcol2]) Hdec
        (fun e he i hi => Hocc2 e he i (hlen2 ▸ hi)) Hnd
      refine ⟨hmain.1, fun x hx => ?_⟩
      obtain ⟨e, he, hh, i, hge, hlt, ho, hfirst, hl, hc3⟩ :=
        hmain.2 x hx
      refine ⟨e, he, hh, i, ?_, hlt, ho, hfirst, hl, hc3⟩
      rw [hlen2] at hge
      omega
    · rw [fhpAux, if_neg hch]
      dsimp only
      have hc2 : c = (pre ++ [ch]) ++ rest := by
        rw [hc, List.append_assoc]
        rfl
      have hlen2 : (pre ++ [ch]).length = pre.length + 1 := by simp
      have hline2 : line = lineAt c (pre.length + 1) := by
        rw [hline]
        unfold lineAt
        rw [hc, take_len_succ, List.take_left, List.count_append]
        simp [List.count_cons, hch]
      have hcol2 : col + 1 = colAt c (pre.length + 1) := by
        rw [hcol]
        unfold colAt
        rw [hc, take_len_succ, List.take_left, List.reverse_append]
        simp [List.takeWhile_cons, bne_iff_ne, hch]
      have Hdec2 : ∀ e ∈ active.filter
          (fun e => ¬ e.1.isPrefixOf (ch :: rest)),
          e.1 = decimalChars e.2 :=
        fun e he => Hdec e (List.mem_filter.mp he).1
      have Hocc2 : ∀ e ∈ active.filter
          (fun e => ¬ e.1.isPrefixOf (ch :: rest)),
          ∀ i, i < pre.length + 1 → occursAt c e.1 i = false := by
        intro e he i hi
        rcases Nat.lt_succ_iff_lt_or_eq.mp hi with h | h
        · exact Hocc e (List.mem_filter.mp he).1 i h
        · subst h
          rw [hc, occursAt_append]
          have h2 := (List.mem_filter.mp he).2
          simp only [decide_eq_true_eq] at h2
          exact Bool.eq_false_iff.mpr h2
      have Hnd2 : ((active.filter
          (fun e => ¬ e.1.isPrefixOf (ch :: rest))).map
            Prod.snd).Nodup :=
        List.Nodup.sublist
          (List.Sublist.map Prod.snd (List.filter_sublist active)) Hnd
      have hmain := ih (pre ++ [ch]) line (col + 1)
        (active.filter (fun e => ¬ e.1.isPrefixOf (ch :: rest))) hc2
        (by rw [hlen2]; exact hline2) (by rw [hlen2]; exact hcol2)
        Hdec2 (fun e he i hi => Hocc2 e he i (hlen2 ▸ hi)) Hnd2
      constructor
      · rw [List.map_append, List.map_map]
        have hcomp : ((fun x : HashWithPosition => x.hash) ∘
            (fun e : GoStr × ℕ =>
              (⟨e.2, line, col⟩ : HashWithPosition))) =
            (Prod.snd : GoStr × ℕ → ℕ) := rfl
        rw [hcomp]
        refine List.Nodup.append
          (List.Nodup.sublist
            (List.Sublist.map Prod.snd (List.filter_sublist active))
            Hnd)
          hmain.1 ?_
        intro a ha hb
        obtain ⟨e, hemem, rfl⟩ := List.mem_map.mp ha
        obtain ⟨x, hxmem, hxa⟩ := List.mem_map.mp hb
        obtain ⟨e2, he2mem, hh2, _⟩ := hmain.2 x hxmem
        have he' : e ∈ active := (List.mem_filter.mp hemem).1
        have he2' : e2 ∈ active := (List.mem_filter.mp he2mem).1
        have heq : e = e2 :=
          List.inj_on_of_nodup_map Hnd he' he2' (by rw [← hxa, hh2])
        have hPe : e.1.isPrefixOf (ch :: rest) = true :=
          (List.mem_filter.mp hemem).2
        have hPe2 := (List.mem_filter.mp he2mem).2
        rw [← heq] at hPe2
        simp only [decide_eq_true_eq] at hPe2
        exact hPe2 hPe
      · intro x hx
        rcases List.mem_append.mp hx with hx1 | hx2
        · obtain ⟨e, hemem, rfl⟩ := List.mem_map.mp hx1
          have he' : e ∈ active := (List.mem_filter.mp hemem).1
          have hPe : e.1.isPrefixOf (ch :: rest) = true :=
            (List.mem_filter.mp hemem).2
          refine ⟨e, he', rfl, pre.length, le_refl _, hlen, ?_,
            fun i2 hi2 => Hocc e he' i2 hi2, hline, hcol⟩
          rw [hc, occursAt_append]
          exact hPe
        · obtain ⟨e, he2, hh, i, hge, hlt, ho, hfirst, hl, hcc⟩ :=
            hmain.2 x hx2
          refine ⟨e, (List.mem_filter.mp he2).1, hh, i, ?_, hlt, ho,
            hfirst, hl, hcc⟩
          rw [hlen2] at hge
          omega

/-- C8: every position emitted by `findHashPositions` is sound — its
line and column are the 1-based coordinates of a scan index `i` at which
the decimal representation of the reported hash begins (so the byte
there starts that decimal string), that index is the first occurrence of
the hash's decimal string in a left-to-right scan, and each hash is
reported at most once. All emitted coordinates are 1-based, so the
claim's `(line, column) ≠ (0, 0)` qualifier is vacuous here. -/
theorem findHashPositions_sound (c : GoStr) (hs : List ℕ) :
    ((findHashPositions c hs).map (fun x => x.hash)).Nodup ∧
    ∀ x ∈ findHashPositions c hs, x.hash ∈ hs ∧
      ∃ i, i < c.length ∧
        occursAt c (decimalChars x.hash) i = true ∧
        (∀ i2, i2 < i → occursAt c (decimalChars x.hash) i2 = false) ∧
        x.line = lineAt c i ∧ x.column = colAt c i := by
  unfold findHashPositions
  by_cases h0 : hs = []
  · rw [if_pos h0]
    exact ⟨List.nodup_nil, fun x hx => absurd hx (List.not_mem_nil x)⟩
  · rw [if_neg h0]
    have hmain := fhpAux_sound c c [] 1 1
      (hs.dedup.map (fun h => (decimalChars h, h)))
      rfl rfl rfl
      (by
        intro e he
        obtain ⟨h, _, rfl⟩ := List.mem_map.mp he
        rfl)
      (fun e _ i hi => absurd hi (Nat.not_lt_zero i))
      (by
        rw [List.map_map]
        have hid : ((Prod.snd : GoStr × ℕ → ℕ) ∘
            fun h => ((decimalChars h, h) : GoStr × ℕ)) = id := rfl
        rw [hid, List.map_id]
        exact hs.nodup_dedup)
    refine ⟨hmain.1, fun x hx => ?_⟩
    obtain ⟨e, he, hh, i, _, hlt, ho, hfirst, hl, hcc⟩ := hmain.2 x hx
    obtain ⟨h, hhmem, rfl⟩ := List.mem_map.mp he
    refine ⟨?_, i, hlt, ?_, ?_, hl, hcc⟩
    · rw [hh]
      exact List.mem_dedup.mp hhmem
    · rw [hh]
      exact ho
    · rw [hh]
      exact hfirst

/-! ## C3 — blocked-by attribution of not-attempted entries -/

theorem depAttach_status (p : ParsedOutput) (f res : GoStr)
    (r : ValidationResult) : (depAttach p f res r).status = r.status := by
  unfold depAttach depHashExact depHashResolved depHashSuffix depProcExact
    depProcResolved
  (repeat' split) <;> rfl

theorem depOutcome_status_ne_notAttempted (p : ParsedOutput)
    (f res : GoStr) (i : ℕ) :
    (depOutcome p f res i).status ≠ FileStatus.notAttempted := by
  unfold depOutcome
  dsimp only
  (repeat' split) <;> simp [depAttach_status]

theorem depOutcome_failed_of_trigger (p : ParsedOutput) (f res : GoStr)
    (i : ℕ)
    (h : (p.failureFile = f ∨ p.failureFile = res) ∨
      (p.panicFile ≠ [] ∧ p.panicFile = baseName f)) :
    (depOutcome p f res i).status = FileStatus.failed := by
  unfold depOutcome
  dsimp only
  by_cases h1 : p.failureFile = f ∨ p.failureFile = res
  · rw [if_pos h1]
  · rw [if_neg h1, if_pos (h.resolve_left h1)]

theorem depStepFold_untouched (d : DependencyInfo) (p : ParsedOutput) :
    ∀ (l : List (ℕ × GoStr)) (st : List (GoStr × ValidationResult) × ℤ)
      (f : GoStr), f ∉ l.map Prod.snd →
      findA f (l.foldl (depStep d p) st).1 = findA f st.1 := by
  intro l
  induction l with
  | nil =>
    intro st f _
    rfl
  | cons e rest ih =>
    intro st f hf
    rw [List.map_cons] at hf
    have hne : f ≠ e.2 := fun h => hf (h ▸ List.mem_cons_self _ _)
    have hrest : f ∉ rest.map Prod.snd :=
      fun h => hf (List.mem_cons_of_mem _ h)
    rw [List.foldl_cons, ih _ f hrest]
    show findA f (depStep d p st e).1 = findA f st.1
    unfold depStep
    dsimp only
    split
    · exact findA_mapSet_ne st.1 _ hne
    · exact findA_mapSet_ne st.1 _ hne

theorem enum_pairwise_fst_lt (l : List GoStr) :
    l.enum.Pairwise (fun a b => a.1 < b.1) := by
  rw [List.pairwise_iff_getElem]
  intro i j hi hj hij
  simp only [List.enum_length] at hi hj
  simp only [List.getElem_enum]
  exact hij

theorem depFold_blocked (d : DependencyInfo) (p : ParsedOutput) :
    ∀ (l : List (ℕ × GoStr)) (st : List (GoStr × ValidationResult) × ℤ),
      (∀ e ∈ l, ∃ he : e.1 < d.expectedLoads.length,
        d.expectedLoads.get ⟨e.1, he⟩ = e.2) →
      (l.map Prod.snd).Nodup →
      l.Pairwise (fun a b => a.1 < b.1) →
      (st.2 = -1 ∨ ∃ j : ℕ, st.2 = (j : ℤ) ∧
        ∃ hj : j < d.expectedLoads.length,
          (∃ r2, findA (d.expectedLoads.get ⟨j, hj⟩) st.1 = some r2 ∧
            r2.status = FileStatus.failed) ∧
          (∀ e ∈ l, j < e.1) ∧
          d.expectedLoads.get ⟨j, hj⟩ ∉ l.map Prod.snd) →
      ∀ (k : ℕ) (hk : k < d.expectedLoads.length),
        (k, d.expectedLoads.get ⟨k, hk⟩) ∈ l →
        ∀ r, findA (d.expectedLoads.get ⟨k, hk⟩)
            (l.foldl (depStep d p) st).1 = some r →
          r.status = FileStatus.notAttempted →
          ∃ j, j < k ∧ ∃ hj : j < d.expectedLoads.length,
            r.blockedBy = d.expectedLoads.get ⟨j, hj⟩ ∧
            ∃ r2, findA (d.expectedLoads.get ⟨j, hj⟩)
                (l.foldl (depStep d p) st).1 = some r2 ∧
              r2.status = FileStatus.failed := by
  intro l
  induction l with
  | nil =>
    intro st _ _ _ _ k hk hmem
    exact absurd hmem (List.not_mem_nil _)
  | cons e rest ih =>
    intro st Hcons Hnd Hmono Hfp k hk hmem r hfind hna
    rw [List.map_cons, List.nodup_cons] at Hnd
    rw [List.pairwise_cons] at Hmono
    rw [List.foldl_cons] at hfind
    by_cases hg : st.2 ≠ -1 ∧ ((e.1 : ℤ) > st.2)
    · have hst1 : (depStep d p st e).1 = mapSet st.1 e.2
          ⟨e.2, FileStatus.notAttempted, false, [], [], (e.1 : ℤ),
            d.expectedLoads.getD st.2.toNat []⟩ := by
        unfold depStep
        dsimp only
        rw [if_pos hg]
      have hst2 : (depStep d p st e).2 = st.2 := by
        unfold depStep
        dsimp only
        rw [if_pos hg]
      rcases Hfp with hm1 | ⟨j, hj2, hjlt, ⟨r2, hr2find, hr2st⟩, hjall,
        hjnotin⟩
      · exact absurd hm1 hg.1
      have hjtoNat : st.2.toNat = j := by
        rw [hj2]
        exact Int.toNat_natCast j
      have hgetD : d.expectedLoads.getD st.2.toNat [] =
          d.expectedLoads.get ⟨j, hjlt⟩ := by
        rw [hjtoNat]
        rw [List.getD_eq_getElem?_getD, List.getElem?_eq_getElem hjlt]
        rfl
      have hjne : d.expectedLoads.get ⟨j, hjlt⟩ ≠ e.2 := by
        intro hq
        exact hjnotin (hq ▸ List.mem_cons_self _ _)
      have hjrest : d.expectedLoads.get ⟨j, hjlt⟩ ∉ rest.map Prod.snd :=
        fun hq => hjnotin (List.mem_cons_of_mem _ hq)
      have hfailsurv : findA (d.expectedLoads.get ⟨j, hjlt⟩)
          (rest.foldl (depStep d p) (depStep d p st e)).1 = some r2 := by
        rw [depStepFold_untouched d p rest _ _ hjrest, hst1,
          findA_mapSet_ne _ _ hjne]
        exact hr2find
      rcases List.mem_cons.mp hmem with hhead | hrest
      · have hke : k = e.1 := congrArg Prod.fst hhead
        have hkey : d.expectedLoads.get ⟨k, hk⟩ = e.2 :=
          congrArg Prod.snd hhead
        have hfind2 : findA (d.expectedLoads.get ⟨k, hk⟩)
            (rest.foldl (depStep d p) (depStep d p st e)).1 =
            some ⟨e.2, FileStatus.notAttempted, false, [], [], (e.1 : ℤ),
              d.expectedLoads.getD st.2.toNat []⟩ := by
          rw [depStepFold_untouched d p rest _ _ (hkey ▸ Hnd.1), hst1,
            hkey]
          exact findA_mapSet_self _ _ _
        rw [hfind2] at hfind
        injection hfind with hr
        refine ⟨j, ?_, hjlt, ?_, r2, ?_, hr2st⟩
        · rw [hke]
          exact hjall e (List.mem_cons_self _ _)
        · rw [← hr]
          exact hgetD
        · rw [List.foldl_cons]
          exact hfailsurv
      · have hfp2 : (depStep d p st e).2 = -1 ∨ ∃ j2 : ℕ,
            (depStep d p st e).2 = (j2 : ℤ) ∧
            ∃ hj : j2 < d.expectedLoads.length,
              (∃ r2, findA (d.expectedLoads.get ⟨j2, hj⟩)
                  (depStep d p st e).1 = some r2 ∧
                r2.status = FileStatus.failed) ∧
              (∀ e2 ∈ rest, j2 < e2.1) ∧
              d.expectedLoads.get ⟨j2, hj⟩ ∉ rest.map Prod.snd := by
          refine Or.inr ⟨j, ?_, hjlt, ⟨r2, ?_, hr2st⟩, ?_, hjrest⟩
          · rw [hst2, hj2]
          · rw [hst1, findA_mapSet_ne _ _ hjne]
            exact hr2find
          · intro e2 he2
            exact hjall e2 (List.mem_cons_of_mem _ he2)
        rw [List.foldl_cons]
        exact ih (depStep d p st e)
          (fun e2 he2 => Hcons e2 (List.mem_cons_of_mem _ he2))
          Hnd.2 Hmono.2 hfp2 k hk hrest r hfind hna
    · have hst1 : (depStep d p st e).1 = mapSet st.1 e.2
          (depOutcome p e.2 (resolveLoadPath d.rootFile e.2) e.1) := by
        unfold depStep
        dsimp only
        rw [if_neg hg]
      rcases List.mem_cons.mp hmem with hhead | hrest
      · have hkey : d.expectedLoads.get ⟨k, hk⟩ = e.2 :=
          congrArg Prod.snd hhead
        have hfind2 : findA (d.expectedLoads.get ⟨k, hk⟩)
            (rest.foldl (depStep d p) (depStep d p st e)).1 =
            some (depOutcome p e.2 (resolveLoadPath d.rootFile e.2)
              e.1) := by
          rw [depStepFold_untouched d p rest _ _ (hkey ▸ Hnd.1), hst1,
            hkey]
          exact findA_mapSet_self _ _ _
        rw [hfind2] at hfind
        injection hfind with hr
        exact absurd (hr ▸ hna)
          (depOutcome_status_ne_notAttempted p e.2 _ e.1)
      · by_cases hcond : (p.failureFile = e.2 ∨
            p.failureFile = resolveLoadPath d.rootFile e.2) ∨
            (p.panicFile ≠ [] ∧ p.panicFile = baseName e.2)
        · obtain ⟨he1, hekey⟩ := Hcons e (List.mem_cons_self _ _)
          have hst2 : (depStep d p st e).2 = (e.1 : ℤ) := by
            unfold depStep
            dsimp only
            rw [if_neg hg]
            dsimp only
            rw [if_pos hcond]
          have hfp2 : (depStep d p st e).2 = -1 ∨ ∃ j2 : ℕ,
              (depStep d p st e).2 = (j2 : ℤ) ∧
              ∃ hj : j2 < d.expectedLoads.length,
                (∃ r2, findA (d.expectedLoads.get ⟨j2, hj⟩)
                    (depStep d p st e).1 = some r2 ∧
                  r2.status = FileStatus.failed) ∧
                (∀ e2 ∈ rest, j2 < e2.1) ∧
                d.expectedLoads.get ⟨j2, hj⟩ ∉ rest.map Prod.snd := by
            refine Or.inr ⟨e.1, hst2, he1,
              ⟨depOutcome p e.2 (resolveLoadPath d.rootFile e.2) e.1,
                ?_, depOutcome_failed_of_trigger p e.2 _ e.1 hcond⟩,
              Hmono.1, hekey ▸ Hnd.1⟩
            rw [hst1, hekey]
            exact findA_mapSet_self _ _ _
          rw [List.foldl_cons]
          exact ih (depStep d p st e)
            (fun e2 he2 => Hcons e2 (List.mem_cons_of_mem _ he2))
            Hnd.2 Hmono.2 hfp2 k hk hrest r hfind hna
        · have hst2 : (depStep d p st e).2 = st.2 := by
            unfold depStep
            dsimp only
            rw [if_neg hg]
            dsimp only
            rw [if_neg hcond]
          have hfp2 : (depStep d p st e).2 = -1 ∨ ∃ j2 : ℕ,
              (depStep d p st e).2 = (j2 : ℤ) ∧
              ∃ hj : j2 < d.expectedLoads.length,
                (∃ r2, findA (d.expectedLoads.get ⟨j2, hj⟩)
                    (depStep d p st e).1 = some r2 ∧
                  r2.status = FileStatus.failed) ∧
                (∀ e2 ∈ rest, j2 < e2.1) ∧
                d.expectedLoads.get ⟨j2, hj⟩ ∉ rest.map Prod.snd := by
            rcases Hfp with hm1 | ⟨j, hj2, hjlt, ⟨r2, hr2find, hr2st⟩,
              hjall, hjnotin⟩
            · exact Or.inl (hst2 ▸ hm1)
            have hjne : d.expectedLoads.get ⟨j, hjlt⟩ ≠ e.2 := by
              intro hq
              exact hjnotin (hq ▸ List.mem_cons_self _ _)
            refine Or.inr ⟨j, ?_, hjlt, ⟨r2, ?_, hr2st⟩, ?_, ?_⟩
            · rw [hst2, hj2]
            · rw [hst1, findA_mapSet_ne _ _ hjne]
              exact hr2find
            · intro e2 he2
              exact hjall e2 (List.mem_cons_of_mem _ he2)
            · exact fun hq => hjnotin (List.mem_cons_of_mem _ hq)
          rw [List.foldl_cons]
          exact ih (depStep d p st e)
            (fun e2 he2 => Hcons e2 (List.mem_cons_of_mem _ he2))
            Hnd.2 Hmono.2 hfp2 k hk hrest r hfind hna

/-- C3 (amended): a `not_attempted` entry for `expectedLoads[k]` is
blocked either by an earlier load — some `j < k` whose map entry is
`failed` and whose path is the recorded `blockedBy` — or, on the
fatal-panic early return, by the root basename itself, whose map entry
is `failed`. The spec's stronger claim that an earlier failed *load*
always exists fails on the panic path, where even `k = 0` entries are
not attempted and are blocked by the root. -/
theorem reconcile_notAttempted_blocked (d : DependencyInfo)
    (p : ParsedOutput) (hnd : d.expectedLoads.Nodup)
    (hroot : baseName d.rootFile ∉ d.expectedLoads)
    (k : ℕ) (hk : k < d.expectedLoads.length) (r : ValidationResult)
    (hfind : findA (d.expectedLoads.get ⟨k, hk⟩)
      (reconcileResults d p) = some r)
    (hna : r.status = FileStatus.notAttempted) :
    (∃ j, j < k ∧ ∃ hj : j < d.expectedLoads.length,
      r.blockedBy = d.expectedLoads.get ⟨j, hj⟩ ∧
      ∃ r2, findA (d.expectedLoads.get ⟨j, hj⟩)
          (reconcileResults d p) = some r2 ∧
        r2.status = FileStatus.failed) ∨
    (r.blockedBy = baseName d.rootFile ∧
      ∃ r2, findA (baseName d.rootFile) (reconcileResults d p) =
          some r2 ∧ r2.status = FileStatus.failed) := by
  have hmemenum : ((k, d.expectedLoads.get ⟨k, hk⟩) : ℕ × GoStr) ∈
      d.expectedLoads.enum := by
    apply List.mem_enum_iff_getElem?.mpr
    simp only
    rw [List.getElem?_eq_getElem hk]
    rfl
  by_cases hpg : p.hadPanic = true ∧ p.hashErrors = [] ∧ p.panicFile = []
  · have hpr : reconcileResults d p = panicResults d p := by
      unfold reconcileResults
      rw [if_pos hpg]
    have hentry : findA (d.expectedLoads.get ⟨k, hk⟩)
        (panicResults d p) =
        some ⟨d.expectedLoads.get ⟨k, hk⟩, FileStatus.notAttempted,
          false, [], [], (k : ℤ), baseName d.rootFile⟩ := by
      unfold panicResults
      exact mapSetFold_mem (fun e : ℕ × GoStr => e.2)
        (fun e : ℕ × GoStr => (⟨e.2, FileStatus.notAttempted, false,
          [], [], (e.1 : ℤ), baseName d.rootFile⟩ : ValidationResult))
        d.expectedLoads.enum _ (k, d.expectedLoads.get ⟨k, hk⟩)
        (by rw [List.enum_map_snd]; exact hnd) hmemenum
    rw [hpr, hentry] at hfind
    injection hfind with hr
    refine Or.inr ⟨by rw [← hr], ⟨baseName d.rootFile,
      FileStatus.failed, false, [],
      ["qmldiff panicked: ".toList ++ p.panicMessage], -1, []⟩, ?_, rfl⟩
    rw [hpr]
    unfold panicResults
    rw [mapSetFold_untouched (fun e : ℕ × GoStr => e.2)
      (fun e : ℕ × GoStr => (⟨e.2, FileStatus.notAttempted, false,
        [], [], (e.1 : ℤ), baseName d.rootFile⟩ : ValidationResult))
      d.expectedLoads.enum _ _
      (by rw [List.enum_map_snd]; exact hroot)]
    exact findA_mapSet_self _ _ _
  · have hpr : reconcileResults d p =
        (d.expectedLoads.enum.foldl (depStep d p)
          (mapSet [] (baseName d.rootFile) (attribRoot d p), -1)).1 := by
      unfold reconcileResults
      rw [if_neg hpg]
    rw [hpr] at hfind ⊢
    have hcons : ∀ e ∈ d.expectedLoads.enum,
        ∃ he : e.1 < d.expectedLoads.length,
          d.expectedLoads.get ⟨e.1, he⟩ = e.2 := by
      intro e he
      have hq := List.mem_enum_iff_getElem?.mp he
      have hlt : e.1 < d.expectedLoads.length := by
        by_contra hc
        push_neg at hc
        rw [List.getElem?_eq_none hc] at hq
        exact Option.noConfusion hq
      rw [List.getElem?_eq_getElem hlt] at hq
      injection hq with hq2
      exact ⟨hlt, hq2⟩
    exact Or.inl (depFold_blocked d p d.expectedLoads.enum
      (mapSet [] (baseName d.rootFile) (attribRoot d p), -1) hcons
      (by rw [List.enum_map_snd]; exact hnd)
      (enum_pairwise_fst_lt d.expectedLoads)
      (Or.inl rfl) k hk hmemenum r hfind hna)

theorem reconcile_notAttempted_blocked_witness :
    (∃ j, j < 1 ∧
      ∃ hj : j < (["dep1.qmd".toList, "dep2.qmd".toList] :
          List GoStr).length,
        ("dep1.qmd".toList : GoStr) =
          (["dep1.qmd".toList, "dep2.qmd".toList] :
            List GoStr).get ⟨j, hj⟩ ∧
        ∃ r2, findA ((["dep1.qmd".toList, "dep2.qmd".toList] :
              List GoStr).get ⟨j, hj⟩)
            (reconcileResults ⟨"/tmp/root.qmd".toList,
              ["dep1.qmd".toList, "dep2.qmd".toList]⟩
              ⟨[], [], [], "dep1.qmd".toList, false, [], []⟩) =
            some r2 ∧ r2.status = FileStatus.failed) ∨
    (("dep1.qmd".toList : GoStr) = baseName "/tmp/root.qmd".toList ∧
      ∃ r2, findA (baseName "/tmp/root.qmd".toList)
          (reconcileResults ⟨"/tmp/root.qmd".toList,
            ["dep1.qmd".toList, "dep2.qmd".toList]⟩
            ⟨[], [], [], "dep1.qmd".toList, false, [], []⟩) =
          some r2 ∧ r2.status = FileStatus.failed) :=
  reconcile_notAttempted_blocked
    ⟨"/tmp/root.qmd".toList, ["dep1.qmd".toList, "dep2.qmd".toList]⟩
    ⟨[], [], [], "dep1.qmd".toList, false, [], []⟩
    (by decide) (by decide) 1 (by decide)
    ⟨"dep2.qmd".toList, FileStatus.notAttempted, false, [], [],
      (1 : ℤ), "dep1.qmd".toList⟩
    (by decide) rfl

/-- On the fatal-panic early return, `expectedLoads[0]` is
`not_attempted` with `blockedBy` the root basename, yet no index
`j < 0` exists — the claimed earlier failed load does not. -/
theorem notAttempted_no_prior_failed_cex :
    findA "dep1.qmd".toList
        (reconcileResults ⟨"/tmp/root.qmd".toList, ["dep1.qmd".toList]⟩
          ⟨[], [], [], [], true, "boom".toList, []⟩) =
      some ⟨"dep1.qmd".toList, FileStatus.notAttempted, false, [], [],
        0, "root.qmd".toList⟩ ∧
    (∀ j : ℕ, ¬ j < 0) ∧
    "root.qmd".toList ∉ (["dep1.qmd".toList] : List GoStr) :=
  ⟨by decide, fun j => Nat.not_lt_zero j, by decide⟩

end RmQmdVerify
